import Mathlib

/-!
Shallow embedding of the entity-linking and aggregation layer of
`entity_linker.py` (classes `EntityLinker` and `DataAggregator`).

Strings are modelled as `List Char`; Python `str.lower()` / `str.strip()` /
`str.replace` are embedded over ASCII.  Database tables are lists of row
structures; a Python `dict` (insertion ordered, assignment overwrites in
place) is an association list with `dictInsert` / `dictGet?`.  Money/score
values are exact rationals; the float comparison `score > 0.85` is modelled
as the rational comparison with 17/20, written `mkRat 17 20` (for the denominators arising here
the two agree).
-/

namespace Coffee

abbrev Str := List Char

/-- Embedding of Python `str.lower()` restricted to ASCII letters. -/
def pyLowerChar (c : Char) : Char :=
  if 'A' ≤ c ∧ c ≤ 'Z' then Char.ofNat (c.toNat + 32) else c

def pyLower (s : Str) : Str := s.map pyLowerChar

/-- Whitespace characters removed by Python `str.strip()` (ASCII subset). -/
def pyIsSpace (c : Char) : Bool :=
  c = ' ' ∨ c = '\t' ∨ c = '\n' ∨ c = '\r' ∨ c = '\x0b' ∨ c = '\x0c'

def pyStrip (s : Str) : Str :=
  ((s.dropWhile pyIsSpace).reverse.dropWhile pyIsSpace).reverse

/-- Embedding of Python `s.replace(a, "")` for a single character `a`. -/
def removeChar (a : Char) (s : Str) : Str := s.filter (fun c => c ≠ a)

/-- Embedding of Python `s.replace(a, b)` for single characters. -/
def replaceChar (a b : Char) (s : Str) : Str :=
  s.map (fun c => if c = a then b else c)

/-- EntityLinker.normalize_name: `name.lower().strip().replace("'", "").replace("-", " ")`. -/
def normalize_name (name : Str) : Str :=
  replaceChar '-' ' ' (removeChar '\'' (pyStrip (pyLower name)))

/-!  difflib.SequenceMatcher(None, a, b).ratio()

`b2j` maps each element of `b` to its (ascending) list of indices; with the
default `autojunk=True` and no junk function, elements occurring more than
`len(b)//100 + 1` times are dropped from `b2j` when `len(b) >= 200`.  The
junk set `bjunk` is empty (no junk function was passed), so the
junk-extension loops of `find_longest_match` never fire and the non-junk
extension loops test only character equality. -/

def occIdx (b : Str) (c : Char) : List Nat :=
  (b.enum.filter (fun p => p.2 = c)).map (fun p => p.1)

def bPopular (b : Str) (c : Char) : Bool :=
  200 ≤ b.length ∧ b.length / 100 + 1 < (occIdx b c).length

def b2jOf (b : Str) (c : Char) : List Nat :=
  if bPopular b c then [] else occIdx b c

/-- Candidate match: start in `a`, start in `b`, length. -/
structure FLM where
  besti : Nat
  bestj : Nat
  size : Nat
deriving DecidableEq

def alGet (l : List (Nat × Nat)) (k : Nat) : Nat :=
  ((l.find? (fun p => p.1 = k)).map (fun p => p.2)).getD 0

/-- One row (fixed `i`) of the `find_longest_match` dynamic program:
reads the previous `j2len`, returns the updated best match and `newj2len`. -/
def flmRow (a b : Str) (j2len : List (Nat × Nat)) (blo bhi i : Nat) (m : FLM) :
    FLM × List (Nat × Nat) :=
  ((b2jOf b (a.getD i ' ')).filter (fun j => blo ≤ j ∧ j < bhi)).foldl
    (fun acc j =>
      let k := (if j = 0 then 0 else alGet j2len (j - 1)) + 1
      let m' := if acc.1.size < k then FLM.mk (i + 1 - k) (j + 1 - k) k else acc.1
      (m', (j, k) :: acc.2))
    (m, ([] : List (Nat × Nat)))

def flmCore (a b : Str) (alo ahi blo bhi : Nat) : FLM :=
  ((List.range' alo (ahi - alo)).foldl
    (fun (acc : FLM × List (Nat × Nat)) i => flmRow a b acc.2 blo bhi i acc.1)
    (FLM.mk alo blo 0, [])).1

def extendL (a b : Str) (alo blo : Nat) : Nat → FLM → FLM
  | 0, m => m
  | fuel + 1, m =>
    if alo < m.besti ∧ blo < m.bestj ∧
        a.getD (m.besti - 1) ' ' = b.getD (m.bestj - 1) ' ' then
      extendL a b alo blo fuel (FLM.mk (m.besti - 1) (m.bestj - 1) (m.size + 1))
    else m

def extendR (a b : Str) (ahi bhi : Nat) : Nat → FLM → FLM
  | 0, m => m
  | fuel + 1, m =>
    if m.besti + m.size < ahi ∧ m.bestj + m.size < bhi ∧
        a.getD (m.besti + m.size) ' ' = b.getD (m.bestj + m.size) ' ' then
      extendR a b ahi bhi fuel (FLM.mk m.besti m.bestj (m.size + 1))
    else m

def find_longest_match (a b : Str) (alo ahi blo bhi : Nat) : FLM :=
  extendR a b ahi bhi ahi (extendL a b alo blo ahi (flmCore a b alo ahi blo bhi))

/-- Total size of `get_matching_blocks` (fuel-driven recursive splitting;
the top-level fuel `|a| + |b| + 1` dominates the recursion depth). -/
def mbSum (a b : Str) : Nat → Nat → Nat → Nat → Nat → Nat
  | 0, _, _, _, _ => 0
  | fuel + 1, alo, ahi, blo, bhi =>
    let m := find_longest_match a b alo ahi blo bhi
    if m.size = 0 then 0
    else
      mbSum a b fuel alo m.besti blo m.bestj + m.size +
        mbSum a b fuel (m.besti + m.size) ahi (m.bestj + m.size) bhi

def totalMatched (a b : Str) : Nat :=
  mbSum a b (a.length + b.length + 1) 0 a.length 0 b.length

/-- SequenceMatcher.ratio(): `2*M/T`, and `1.0` when both strings are empty. -/
def ratioOf (a b : Str) : ℚ :=
  if a.length + b.length = 0 then 1
  else mkRat (2 * (totalMatched a b : Int)) (a.length + b.length)

/-- EntityLinker.fuzzy_match_score: ratio of the lowercased strings. -/
def fuzzy_match_score (s1 s2 : Str) : ℚ := ratioOf (pyLower s1) (pyLower s2)

/-!  Python dict as insertion-ordered association list. -/

def dictInsert {α : Type} : Str → α → List (Str × α) → List (Str × α)
  | k, v, [] => [(k, v)]
  | k, v, p :: rest => if p.1 = k then (k, v) :: rest else p :: dictInsert k v rest

def dictGet? {α : Type} : Str → List (Str × α) → Option α
  | _, [] => none
  | k, p :: rest => if p.1 = k then some p.2 else dictGet? k rest

/-!  Reference-table rows, as selected by `_load_caches`.  The `verified`
column of `entities` is never read by the linker and is not modelled. -/

structure FlavorRow where
  id : Nat
  term : Str
  normalized_term : Str
  synonyms : List Str
deriving DecidableEq

structure EntityRow where
  id : Nat
  name : Str
  slug : Str
  entity_type : Str
deriving DecidableEq

structure OriginRow where
  id : Nat
  country : Str
  region : Option Str
  normalized_name : Str
deriving DecidableEq

abbrev FlavorCache := List (Str × FlavorRow)
abbrev EntityCache := List (Str × EntityRow)
abbrev OriginCache := List (Str × OriginRow)

/-- One iteration of the flavor loop of `_load_caches`: index the row by
its lowercased term, normalized term, and every lowercased synonym
(a NULL/empty synonym list contributes nothing). -/
def insertFlavorRow (c : FlavorCache) (r : FlavorRow) : FlavorCache :=
  r.synonyms.foldl (fun acc syn => dictInsert (pyLower syn) r acc)
    (dictInsert (pyLower r.normalized_term) r (dictInsert (pyLower r.term) r c))

def load_flavor_cache (rows : List FlavorRow) : FlavorCache :=
  rows.foldl insertFlavorRow []

/-- Entity loop of `_load_caches`: index by lowercased name, then slug. -/
def load_entity_cache (rows : List EntityRow) : EntityCache :=
  rows.foldl (fun c r => dictInsert (pyLower r.slug) r (dictInsert (pyLower r.name) r c)) []

/-- Origin loop of `_load_caches`: index by lowercased normalized_name, then country. -/
def load_origin_cache (rows : List OriginRow) : OriginCache :=
  rows.foldl (fun c r => dictInsert (pyLower r.country) r (dictInsert (pyLower r.normalized_name) r c)) []

/-- EntityLinker.find_flavor_id: pure cache lookup of the lowercased,
stripped term; no database access on either branch. -/
def find_flavor_id (cache : FlavorCache) (flavor_term : Str) : Option Nat :=
  (dictGet? (pyStrip (pyLower flavor_term)) cache).map (fun r => r.id)

/-!  link_flavors.  An extracted flavor is a JSON dict; a missing key is
`none` (subscripting it raises, `.get` supplies the default). -/

structure FlavorData where
  term : Option Str
  context : Option Str
  intensity : Option Str
  sentiment : Option ℚ
  confidence : Option ℚ
  is_primary : Option Bool
deriving DecidableEq

structure FERow where
  processed_review_id : Nat
  post_id : Str
  flavor_term_id : Nat
  mention_text : Option Str
  sentence_context : Str
  intensity : Str
  sentiment : ℚ
  confidence_score : ℚ
  is_primary_flavor : Bool
  mention_order : Nat
deriving DecidableEq

/-- Modelled from the spec: the `flavor_extractions` schema (in particular
its unique constraint, the arbiter of the bare `ON CONFLICT DO NOTHING`)
is not under `src/`.  Per the spec's "upserts linkage ... rows with
idempotent conflict handling", a row conflicts exactly when the table
already holds a row with the same (processed_review_id, post_id,
flavor_term_id) triple. -/
def feSameKey (x r : FERow) : Bool :=
  x.processed_review_id = r.processed_review_id ∧ x.post_id = r.post_id ∧
    x.flavor_term_id = r.flavor_term_id

/-- Embeds `INSERT INTO flavor_extractions ... ON CONFLICT DO NOTHING RETURNING id`:
returns the new table and whether `RETURNING` yielded a row. -/
def feInsert (t : List FERow) (r : FERow) : List FERow × Bool :=
  if t.any (fun x => feSameKey x r) then (t, false) else (t ++ [r], true)

/-- Python `list.index`, on elements known to be present. -/
def pyIndex {α : Type} [DecidableEq α] (l : List α) (x : α) : Nat :=
  l.findIdx (fun y => y = x)

def mkFERow (prid : Nat) (postId : Str) (fid : Nat) (fd : FlavorData)
    (order : Nat) : FERow :=
  { processed_review_id := prid
    post_id := postId
    flavor_term_id := fid
    mention_text := fd.term
    sentence_context := (fd.context.getD []).take 200
    intensity := fd.intensity.getD ("moderate".data)
    sentiment := fd.sentiment.getD 0
    confidence_score := fd.confidence.getD (mkRat 1 2)
    is_primary_flavor := fd.is_primary.getD false
    mention_order := order }

/-- Loop body of link_flavors.  `flavor_data['term']` raises (KeyError) when
the key is missing — outside the per-row try/except, so it propagates.
`if not flavor_id` skips both `None` and `0`.  The trace accumulator records
every attempted INSERT together with the dict that produced it. -/
def linkFlavorsGo (cache : FlavorCache) (prid : Nat) (postId : Str)
    (allFds : List FlavorData) :
    List FlavorData → List FERow → List Nat → List (FlavorData × FERow) →
      Except Unit (List Nat × List FERow × List (FlavorData × FERow))
  | [], t, acc, tr => .ok (acc.reverse, t, tr.reverse)
  | fd :: rest, t, acc, tr =>
    match fd.term with
    | none => .error ()
    | some term =>
      match find_flavor_id cache term with
      | none => linkFlavorsGo cache prid postId allFds rest t acc tr
      | some fid =>
        if fid = 0 then linkFlavorsGo cache prid postId allFds rest t acc tr
        else
          let row := mkFERow prid postId fid fd (pyIndex allFds fd + 1)
          let p := feInsert t row
          linkFlavorsGo cache prid postId allFds rest p.1
            (if p.2 then fid :: acc else acc) ((fd, row) :: tr)

/-- EntityLinker.link_flavors over the flavor_extractions table state.
Returns (linked flavor ids, new table, trace of attempted inserts). -/
def link_flavors (cache : FlavorCache) (prid : Nat) (postId : Str)
    (extracted_flavors : List FlavorData) (t : List FERow) :
    Except Unit (List Nat × List FERow × List (FlavorData × FERow)) :=
  if extracted_flavors.isEmpty then .ok ([], t, [])
  else linkFlavorsGo cache prid postId extracted_flavors extracted_flavors t [] []

/-!  find_or_create_entity. -/

structure EntitiesTable where
  rows : List EntityRow
  nextId : Nat
deriving DecidableEq

/-- The slug computed on the create path:
`entity_name.lower().replace(' ', '-').replace("'", "")`. -/
def slug_of (name : Str) : Str :=
  removeChar '\'' (replaceChar ' ' '-' (pyLower name))

/-- Embeds `INSERT INTO entities ... ON CONFLICT (slug) DO UPDATE SET name =
EXCLUDED.name RETURNING id`: a fresh slug appends a row with a fresh id;
a conflicting slug rewrites that row's name and returns its existing id. -/
def entitiesUpsert (tbl : EntitiesTable) (ty name slug : Str) :
    Nat × EntitiesTable :=
  match tbl.rows.find? (fun r => r.slug = slug) with
  | some r =>
    (r.id,
      { tbl with
          rows := tbl.rows.map
            (fun x => if x.slug = slug then { x with name := name } else x) })
  | none =>
    (tbl.nextId,
      { rows := tbl.rows ++ [⟨tbl.nextId, name, slug, ty⟩],
        nextId := tbl.nextId + 1 })

/-- The fuzzy-matching loop of find_or_create_entity: fold over the cache
items in insertion order, keeping the first strictly-best same-type score. -/
def bestFuzzy (normalized ty : Str) (cache : EntityCache) :
    Option EntityRow × ℚ :=
  cache.foldl
    (fun acc p =>
      if p.2.entity_type ≠ ty then acc
      else if acc.2 < fuzzy_match_score normalized p.1 then
        (some p.2, fuzzy_match_score normalized p.1)
      else acc)
    (none, 0)

/-- Create path of find_or_create_entity (the DB upsert cannot fail in this
model, so the except/rollback/return-None branch is unreachable). -/
def foceCreate (entity_name entity_type normalized : Str)
    (cache : EntityCache) (tbl : EntitiesTable) :
    Nat × EntityCache × EntitiesTable :=
  match entitiesUpsert tbl entity_type entity_name (slug_of entity_name) with
  | (eid, tbl') =>
    (eid,
      dictInsert normalized ⟨eid, entity_name, slug_of entity_name, entity_type⟩ cache,
      tbl')

/-- EntityLinker.find_or_create_entity over the in-memory cache and the
entities table (`normalized` is inlined as `normalize_name entity_name`). -/
def find_or_create_entity (entity_name entity_type : Str)
    (cache : EntityCache) (tbl : EntitiesTable) :
    Nat × EntityCache × EntitiesTable :=
  match dictGet? (normalize_name entity_name) cache with
  | some row => (row.id, cache, tbl)
  | none =>
    match bestFuzzy (normalize_name entity_name) entity_type cache with
    | (some r, bs) =>
      if mkRat 17 20 < bs then (r.id, cache, tbl)
      else foceCreate entity_name entity_type (normalize_name entity_name) cache tbl
    | (none, _) =>
      foceCreate entity_name entity_type (normalize_name entity_name) cache tbl

/-!  Origins. -/

structure OriginsTable where
  rows : List OriginRow
  nextId : Nat
deriving DecidableEq

def isAsciiAlpha (c : Char) : Bool :=
  ('a' ≤ c ∧ c ≤ 'z') ∨ ('A' ≤ c ∧ c ≤ 'Z')

def pyUpperChar (c : Char) : Char :=
  if 'a' ≤ c ∧ c ≤ 'z' then Char.ofNat (c.toNat - 32) else c

/-- Embedding of Python `str.title()` over ASCII letters. -/
def pyTitleGo : Bool → Str → Str
  | _, [] => []
  | prevAlpha, c :: rest =>
    (if isAsciiAlpha c then
        (if prevAlpha then pyLowerChar c else pyUpperChar c)
      else c) :: pyTitleGo (isAsciiAlpha c) rest

def pyTitle (s : Str) : Str := pyTitleGo false s

/-- Embeds `INSERT INTO origins ... ON CONFLICT (normalized_name) DO UPDATE SET
country = EXCLUDED.country RETURNING id`. -/
def originsUpsert (tbl : OriginsTable) (country : Str) (region : Option Str)
    (normalized : Str) : Nat × OriginsTable :=
  match tbl.rows.find? (fun r => r.normalized_name = normalized) with
  | some r =>
    (r.id,
      { tbl with
          rows := tbl.rows.map
            (fun x =>
              if x.normalized_name = normalized then { x with country := country }
              else x) })
  | none =>
    (tbl.nextId,
      { rows := tbl.rows ++ [⟨tbl.nextId, country, region, normalized⟩],
        nextId := tbl.nextId + 1 })

/-- EntityLinker.find_or_create_origin (the cached dict stores the original,
untitled country/region, while the table row stores the `.title()` forms). -/
def find_or_create_origin (country : Str) (region : Option Str)
    (cache : OriginCache) (tbl : OriginsTable) :
    Nat × OriginCache × OriginsTable :=
  let normalized :=
    match region with
    | some rg => pyLower country ++ ['_'] ++ pyLower rg
    | none => pyLower country ++ ("_general".data)
  match dictGet? normalized cache with
  | some row => (row.id, cache, tbl)
  | none =>
    let p := originsUpsert tbl (pyTitle country) (region.map pyTitle) normalized
    (p.1, dictInsert normalized ⟨p.1, country, region, normalized⟩ cache, p.2)

/-- EntityLinker.link_origins (`if origin_id:` keeps only truthy ids). -/
def link_origins (extracted_origins : List Str)
    (cache : OriginCache) (tbl : OriginsTable) :
    List Nat × OriginCache × OriginsTable :=
  extracted_origins.foldl
    (fun acc nm =>
      let p := find_or_create_origin nm none acc.2.1 acc.2.2
      (if p.1 ≠ 0 then acc.1 ++ [p.1] else acc.1, p.2.1, p.2.2))
    ([], cache, tbl)

/-!  Roasters / coffee_mentions. -/

structure RoasterData where
  name : Option Str
  context : Option Str
deriving DecidableEq

structure CMRow where
  post_id : Str
  roaster_id : Nat
  mention_text : Str
  mention_context : Str
  confidence_score : ℚ
deriving DecidableEq

/-- Modelled from the spec: the `coffee_mentions` schema (the arbiter of its
bare `ON CONFLICT DO NOTHING`) is not under `src/`; per the spec's idempotent
conflict handling it is modelled as unique on (post_id, roaster_id).  The
returned id is not inspected, so the conflict key does not affect the
claims below. -/
def cmInsert (t : List CMRow) (r : CMRow) : List CMRow :=
  if t.any (fun x => x.post_id = r.post_id ∧ x.roaster_id = r.roaster_id) then t
  else t ++ [r]

def mkCMRow (postId : Str) (rid : Nat) (nm : Str) (rd : RoasterData) : CMRow :=
  { post_id := postId
    roaster_id := rid
    mention_text := nm
    mention_context := (rd.context.getD []).take 200
    confidence_score := mkRat 7 10 }

/-- Loop of link_roasters.  `roaster_data['name']` raises when missing
(outside any try), carrying out the cache/table mutations made so far;
`linked_entity_ids.append` is unconditional once the entity id is truthy. -/
def linkRoastersGo (postId : Str) :
    List RoasterData → List Nat → EntityCache → EntitiesTable → List CMRow →
      Except (EntityCache × EntitiesTable × List CMRow)
        (List Nat × EntityCache × EntitiesTable × List CMRow)
  | [], acc, ec, et, cm => .ok (acc.reverse, ec, et, cm)
  | rd :: rest, acc, ec, et, cm =>
    match rd.name with
    | none => .error (ec, et, cm)
    | some nm =>
      let p := find_or_create_entity nm ("roaster".data) ec et
      if p.1 ≠ 0 then
        linkRoastersGo postId rest (p.1 :: acc) p.2.1 p.2.2
          (cmInsert cm (mkCMRow postId p.1 nm rd))
      else linkRoastersGo postId rest acc p.2.1 p.2.2 cm

def link_roasters (postId : Str) (extracted_roasters : List RoasterData)
    (ec : EntityCache) (et : EntitiesTable) (cm : List CMRow) :
    Except (EntityCache × EntitiesTable × List CMRow)
      (List Nat × EntityCache × EntitiesTable × List CMRow) :=
  if extracted_roasters.isEmpty then .ok ([], ec, et, cm)
  else linkRoastersGo postId extracted_roasters [] ec et cm

/-!  link_single_review / process_batch. -/

structure PRRow where
  id : Nat
  post_id : Str
  mentioned_flavor_ids : List Nat
  mentioned_roaster_ids : List Nat
  mentioned_origins : List Str
deriving DecidableEq

/-- The fields of an `nlp_extractions` row that link_single_review reads
(brew_methods, process_methods, price, keywords are fetched but unused). -/
structure ExtractedData where
  flavors : List FlavorData
  roasters : List RoasterData
  origins : List Str
deriving DecidableEq

/-- _get_extracted_data: row lookup by processed_review_id; a missing row
(or a JSON parse error, caught internally) yields None. -/
def getExtractedData (tbl : List (Nat × ExtractedData)) (prid : Nat) :
    Option ExtractedData :=
  (tbl.find? (fun p => p.1 = prid)).map (fun p => p.2)

structure LinkDB where
  flavor_extractions : List FERow
  coffee_mentions : List CMRow
  entities : EntitiesTable
  origins : OriginsTable
  processed_reviews : List PRRow
  nlp_extractions : List (Nat × ExtractedData)
deriving DecidableEq

/-- Connection state: `current` is the uncommitted view; `commit` publishes
it, `rollback` discards it.  The in-memory caches live outside the
transaction and survive a rollback. -/
structure LinkerState where
  flavor_cache : FlavorCache
  entity_cache : EntityCache
  origin_cache : OriginCache
  current : LinkDB
  committed : LinkDB
deriving DecidableEq

def rollback (st : LinkerState) : LinkerState := { st with current := st.committed }

def commitConn (st : LinkerState) : LinkerState := { st with committed := st.current }

structure Stats where
  flavors_linked : Nat
  roasters_linked : Nat
  origins_linked : Nat
  products_linked : Nat
deriving DecidableEq

def zeroStats : Stats := ⟨0, 0, 0, 0⟩

def natStr (n : Nat) : Str := (Nat.repr n).data

/-- Embeds `UPDATE processed_reviews SET mentioned_* WHERE id = %s`. -/
def prUpdate (prs : List PRRow) (prid : Nat) (fids rids : List Nat)
    (oids : List Str) : List PRRow :=
  prs.map (fun r =>
    if r.id = prid then
      { r with
          mentioned_flavor_ids := fids
          mentioned_roaster_ids := rids
          mentioned_origins := oids }
    else r)

/-- EntityLinker.link_single_review.  The middle component records whether
the broad except handler fired (it rolls back and returns the stats
accumulated so far — counters assigned before the failing step keep their
values).  A missing extraction returns zero stats with no rollback. -/
def link_single_review (review : PRRow) (st : LinkerState) :
    Stats × Bool × LinkerState :=
  match getExtractedData st.current.nlp_extractions review.id with
  | none => (zeroStats, false, st)
  | some ed =>
    match link_flavors st.flavor_cache review.id review.post_id ed.flavors
        st.current.flavor_extractions with
    | .error _ => (zeroStats, true, rollback st)
    | .ok q =>
      let fids := q.1
      let st1 := { st with current := { st.current with flavor_extractions := q.2.1 } }
      match link_roasters review.post_id ed.roasters st1.entity_cache
          st1.current.entities st1.current.coffee_mentions with
      | .error e =>
        ({ zeroStats with flavors_linked := fids.length }, true,
          rollback { st1 with entity_cache := e.1 })
      | .ok r =>
        let rids := r.1
        let st2 :=
          { st1 with
              entity_cache := r.2.1
              current :=
                { st1.current with
                    entities := r.2.2.1
                    coffee_mentions := r.2.2.2 } }
        let o := link_origins ed.origins st2.origin_cache st2.current.origins
        let oids := o.1
        let st3 :=
          { st2 with
              origin_cache := o.2.1
              current := { st2.current with origins := o.2.2 } }
        let st4 :=
          { st3 with
              current := { st3.current with
                  processed_reviews := prUpdate st3.current.processed_reviews
                    review.id fids rids (oids.map natStr) } }
        (⟨fids.length, rids.length, oids.length, 0⟩, false, st4)

/-- Loop of process_batch, 1-based index `i`; the trace records the loop
indices at which `conn.commit()` ran (`i % 10 == 0`). -/
def processBatchGo : List PRRow → Nat → LinkerState → List Nat →
    LinkerState × List Nat
  | [], _, st, tr => (st, tr.reverse)
  | r :: rest, i, st, tr =>
    let q := link_single_review r st
    if i % 10 = 0 then processBatchGo rest (i + 1) (commitConn q.2.2) (i :: tr)
    else processBatchGo rest (i + 1) q.2.2 tr

/-- EntityLinker.process_batch over an already-fetched batch.  An empty
batch returns 0 before the loop, with no commit; otherwise the loop runs,
a final commit follows it (recorded at position `reviews.length`), and the
batch size is returned.  (`total_stats` is only logged and is not
modelled.) -/
def process_batch (reviews : List PRRow) (st : LinkerState) :
    LinkerState × Nat × List Nat :=
  if reviews.isEmpty then (st, 0, [])
  else
    let p := processBatchGo reviews 1 st []
    (commitConn p.1, reviews.length, p.2 ++ [reviews.length])

/-!  DataAggregator.compute_flavor_rankings.  Dates are day numbers (ℤ);
`CURRENT_DATE` is the `today` parameter.  The `computed_at` timestamp
column is metadata not modelled. -/

structure AggFE where
  flavor_term_id : Nat
  processed_review_id : Nat
  sentiment : ℚ
  confidence_score : ℚ
  created_at : Int
deriving DecidableEq

structure AggPR where
  id : Nat
  post_id : Str
deriving DecidableEq

structure RankRow where
  flavor_id : Nat
  period_start : Int
  period_end : Int
  period_type : Str
  mention_count : Nat
  unique_products : Nat
  avg_sentiment : ℚ
  positive_mentions : Nat
  negative_mentions : Nat
  popularity_rank : Option Nat
deriving DecidableEq

/-- week → 7 days, month → 30, anything else → 365. -/
def intervalOf (period : Str) : Int :=
  if period = "week".data then 7 else if period = "month".data then 30 else 365

/-- Embeds `WHERE fe.created_at >= CURRENT_DATE - INTERVAL ... AND
fe.confidence_score > 0.5`. -/
def qualifying (today ivl : Int) (fes : List AggFE) : List AggFE :=
  fes.filter (fun fe => today - ivl ≤ fe.created_at ∧ mkRat 1 2 < fe.confidence_score)

/-- Embeds `JOIN processed_reviews pr ON fe.processed_review_id = pr.id`. -/
def joinPR (prs : List AggPR) (fes : List AggFE) : List (AggFE × AggPR) :=
  fes.flatMap (fun fe =>
    (prs.filter (fun pr => pr.id = fe.processed_review_id)).map (fun pr => (fe, pr)))

/-- One `GROUP BY fe.flavor_term_id` output row (popularity_rank is not in
the INSERT column list, hence NULL on fresh rows). -/
def aggFor (today ivl : Int) (period : Str) (j : List (AggFE × AggPR))
    (fid : Nat) : RankRow :=
  let g := j.filter (fun x => x.1.flavor_term_id = fid)
  { flavor_id := fid
    period_start := today - ivl
    period_end := today
    period_type := period
    mention_count := g.length
    unique_products := ((g.map (fun x => x.2.post_id)).dedup).length
    avg_sentiment := (g.map (fun x => x.1.sentiment)).sum / (g.length : ℚ)
    positive_mentions := (g.filter (fun x => mkRat 3 10 < x.1.sentiment)).length
    negative_mentions := (g.filter (fun x => x.1.sentiment < mkRat (-3) 10)).length
    popularity_rank := none }

def groupRows (period : Str) (today : Int) (prs : List AggPR)
    (fes : List AggFE) : List RankRow :=
  let ivl := intervalOf period
  let j := joinPR prs (qualifying today ivl fes)
  ((j.map (fun x => x.1.flavor_term_id)).dedup).map (aggFor today ivl period j)

def rankKey (r g : RankRow) : Bool :=
  r.flavor_id = g.flavor_id ∧ r.period_start = g.period_start ∧
    r.period_end = g.period_end ∧ r.period_type = g.period_type

/-- Embeds `ON CONFLICT (flavor_id, period_start, period_end, period_type)
DO UPDATE SET mention_count = EXCLUDED.mention_count, avg_sentiment =
EXCLUDED.avg_sentiment` (the other columns keep their stored values). -/
def applyGroup (t : List RankRow) (g : RankRow) : List RankRow :=
  if t.any (fun r => rankKey r g) then
    t.map (fun r =>
      if rankKey r g then
        { r with mention_count := g.mention_count, avg_sentiment := g.avg_sentiment }
      else r)
  else t ++ [g]

/-- The window of the rank-assignment UPDATE:
`WHERE period_type = %s AND period_end = CURRENT_DATE`. -/
def inWindow (period : Str) (today : Int) (r : RankRow) : Bool :=
  r.period_type = period ∧ r.period_end = today

/-- Embeds `RANK() OVER (ORDER BY mention_count DESC)`: 1 + the number of window
rows with strictly greater mention_count. -/
def rankOf (t : List RankRow) (period : Str) (today : Int) (r : RankRow) : Nat :=
  1 + (t.filter (fun x => inWindow period today x ∧ r.mention_count < x.mention_count)).length

def setRanks (period : Str) (today : Int) (t : List RankRow) : List RankRow :=
  t.map (fun r =>
    if inWindow period today r then
      { r with popularity_rank := some (rankOf t period today r) }
    else r)

/-- DataAggregator.compute_flavor_rankings: the grouped upsert followed by
the rank-assignment update, acting on the flavor_rankings table. -/
def compute_flavor_rankings (period : Str) (today : Int) (prs : List AggPR)
    (fes : List AggFE) (t : List RankRow) : List RankRow :=
  setRanks period today ((groupRows period today prs fes).foldl applyGroup t)

/-!  Generic view of the cache-loading folds: each row is indexed under a
list of keys. -/

def insertKeys {α : Type} (ks : List Str) (v : α) (d : List (Str × α)) :
    List (Str × α) :=
  ks.foldl (fun acc k => dictInsert k v acc) d

def loadCache {α : Type} (keysOf : α → List Str) (rows : List α) :
    List (Str × α) :=
  rows.foldl (fun c r => insertKeys (keysOf r) r c) []

def flavorKeys (r : FlavorRow) : List Str :=
  pyLower r.term :: pyLower r.normalized_term :: r.synonyms.map pyLower

def entityKeys (r : EntityRow) : List Str :=
  [pyLower r.name, pyLower r.slug]

def originKeys (r : OriginRow) : List Str :=
  [pyLower r.normalized_name, pyLower r.country]

/-!  Concrete sample data used by the counterexamples and witnesses. -/

def fRowChoc : FlavorRow := ⟨1, "chocolate".data, "chocolate".data, []⟩

def fRowsA : List FlavorRow := [fRowChoc]

def oRowA : OriginRow :=
  ⟨1, "Ethiopia".data, some ("Yirgacheffe".data), "ethiopia_yirgacheffe".data⟩

def oRowB : OriginRow := ⟨2, "Ethiopia".data, none, "ethiopia_general".data⟩

def oRowsA : List OriginRow := [oRowA, oRowB]

def eRowBlue : EntityRow :=
  ⟨3, "Blue Bottle".data, "blue-bottle".data, "roaster".data⟩

def eRowAB : EntityRow := ⟨1, "A-B".data, "a-b".data, "roaster".data⟩

def eCacheAB : EntityCache := [("a-b".data, eRowAB)]

def eTblAB : EntitiesTable := ⟨[eRowAB], 2⟩

def eRowLong : EntityRow :=
  ⟨5, "Abcdefghij".data, "abcdefghij".data, "roaster".data⟩

def eCacheLong : EntityCache := [("abcdefghij".data, eRowLong)]

def eTblLong : EntitiesTable := ⟨[eRowLong], 6⟩

/-- A flavor_extractions row with the given linkage key is present. -/
def feKeyCovered (t : List FERow) (prid : Nat) (postId : Str) (fid : Nat) : Prop :=
  ∃ x ∈ t, x.processed_review_id = prid ∧ x.post_id = postId ∧
    x.flavor_term_id = fid

def fRowBerry : FlavorRow := ⟨7, "berry".data, "berry".data, []⟩

def fCacheBerry : FlavorCache := load_flavor_cache [fRowBerry]

def fdBerry : FlavorData := ⟨some ("berry".data), none, none, none, none, none⟩

def edNoName : ExtractedData := ⟨[fdBerry], [⟨none, none⟩], []⟩

def edNoTerm : ExtractedData := ⟨[⟨none, none, none, none, none, none⟩], [], []⟩

def dbNoName : LinkDB :=
  ⟨[], [], ⟨[], 1⟩, ⟨[], 1⟩, [⟨1, "p1".data, [], [], []⟩], [(1, edNoName)]⟩

def stNoName : LinkerState := ⟨fCacheBerry, [], [], dbNoName, dbNoName⟩

def dbNoTerm : LinkDB :=
  ⟨[], [], ⟨[], 1⟩, ⟨[], 1⟩, [⟨1, "p1".data, [], [], []⟩], [(1, edNoTerm)]⟩

def stNoTerm : LinkerState := ⟨fCacheBerry, [], [], dbNoTerm, dbNoTerm⟩

def rvOne : PRRow := ⟨1, "p1".data, [], [], []⟩

def dbEmpty : LinkDB := ⟨[], [], ⟨[], 1⟩, ⟨[], 1⟩, [], []⟩

/-- A state whose current transaction view differs from the committed one. -/
def stDirty : LinkerState := ⟨[], [], [], dbNoName, dbEmpty⟩

def rvs12 : List PRRow := (List.range 12).map (fun i => ⟨i + 1, "p".data, [], [], []⟩)

/-- The upsert for group row `g` is a no-op on table `t` up to the updated
columns: some row carries `g`'s conflict key, and every row carrying it
already stores `g`'s mention_count and avg_sentiment. -/
def noopCond (g : RankRow) (t : List RankRow) : Prop :=
  (∃ r ∈ t, rankKey r g = true) ∧
    ∀ r ∈ t, rankKey r g = true →
      r.mention_count = g.mention_count ∧ r.avg_sentiment = g.avg_sentiment

/-- A stale flavor_rankings row from an earlier run of the same day whose
flavor has no qualifying extraction in the current state. -/
def rrStale : RankRow := ⟨99, 70, 100, "month".data, 7, 0, 0, 0, 0, none⟩

def aggPrs : List AggPR := [⟨1, "p1".data⟩]

def aggFes : List AggFE :=
  [⟨5, 1, 0, 1, 100⟩, ⟨6, 1, 0, 1, 100⟩, ⟨6, 1, 0, 1, 100⟩]

end Coffee

namespace Coffee

/-!  Lemmas about the dict model. -/

theorem dictGet?_insert_same {α : Type} (k : Str) (v : α) :
    ∀ d : List (Str × α), dictGet? k (dictInsert k v d) = some v
  | [] => by simp [dictInsert, dictGet?]
  | p :: rest => by
    by_cases hp : p.1 = k
    · simp [dictInsert, dictGet?, hp]
    · simp [dictInsert, dictGet?, hp, dictGet?_insert_same k v rest]

theorem dictGet?_insert_other {α : Type} {k k' : Str} (hne : k ≠ k') (v : α) :
    ∀ d : List (Str × α), dictGet? k (dictInsert k' v d) = dictGet? k d
  | [] => by simp [dictInsert, dictGet?, Ne.symm hne]
  | p :: rest => by
    by_cases hp : p.1 = k'
    · have hpk : ¬ p.1 = k := by rw [hp]; exact Ne.symm hne
      simp [dictInsert, dictGet?, hp, hpk, Ne.symm hne]
    · by_cases hpk : p.1 = k
      · simp [dictInsert, dictGet?, hp, hpk, hne]
      · simp [dictInsert, dictGet?, hp, hpk, dictGet?_insert_other hne v rest]

/-- Lookup after inserting under a key list: an unlisted key is unaffected. -/
theorem dictGet?_insertKeys_not_mem {α : Type} (v : α) :
    ∀ (ks : List Str) (k : Str) (d : List (Str × α)), k ∉ ks →
      dictGet? k (insertKeys ks v d) = dictGet? k d
  | [], _, _, _ => rfl
  | k0 :: ks, k, d, h => by
    have h1 : k ≠ k0 := fun hh => h (by simp [hh])
    have h2 : k ∉ ks := fun hh => h (List.mem_cons_of_mem _ hh)
    calc dictGet? k (insertKeys ks v (dictInsert k0 v d))
        = dictGet? k (dictInsert k0 v d) := dictGet?_insertKeys_not_mem v ks k _ h2
      _ = dictGet? k d := dictGet?_insert_other h1 v d

/-- Lookup after inserting under a key list: a listed key maps to the value. -/
theorem dictGet?_insertKeys_mem {α : Type} (v : α) :
    ∀ (ks : List Str) (k : Str) (d : List (Str × α)), k ∈ ks →
      dictGet? k (insertKeys ks v d) = some v
  | [], _, _, h => by simp at h
  | k0 :: ks, k, d, h => by
    by_cases hk : k ∈ ks
    · exact dictGet?_insertKeys_mem v ks k (dictInsert k0 v d) hk
    · have hk0 : k = k0 := by
        rcases List.mem_cons.mp h with h1 | h2
        · exact h1
        · exact absurd h2 hk
      subst hk0
      calc dictGet? k (insertKeys ks v (dictInsert k v d))
          = dictGet? k (dictInsert k v d) := dictGet?_insertKeys_not_mem v ks k _ hk
        _ = some v := dictGet?_insert_same k v d

theorem dictGet?_insertKeys_isSome {α : Type} (v : α) (ks : List Str) (k : Str)
    (d : List (Str × α)) :
    (dictGet? k (insertKeys ks v d)).isSome = true ↔
      k ∈ ks ∨ (dictGet? k d).isSome = true := by
  by_cases hk : k ∈ ks
  · simp [dictGet?_insertKeys_mem v ks k d hk, hk]
  · simp [dictGet?_insertKeys_not_mem v ks k d hk, hk]

theorem loadCache_foldl_isSome {α : Type} (keysOf : α → List Str) (k : Str) :
    ∀ (rows : List α) (c : List (Str × α)),
      (dictGet? k (rows.foldl (fun c r => insertKeys (keysOf r) r c) c)).isSome = true ↔
        (∃ r ∈ rows, k ∈ keysOf r) ∨ (dictGet? k c).isSome = true
  | [], c => by simp
  | r :: rest, c => by
    rw [List.foldl_cons,
      loadCache_foldl_isSome keysOf k rest (insertKeys (keysOf r) r c),
      dictGet?_insertKeys_isSome]
    constructor
    · rintro (⟨r', hr', hk⟩ | hk | hs)
      · exact Or.inl ⟨r', List.mem_cons_of_mem _ hr', hk⟩
      · exact Or.inl ⟨r, List.mem_cons_self _ _, hk⟩
      · exact Or.inr hs
    · rintro (⟨r', hr', hk⟩ | hs)
      · rcases List.mem_cons.mp hr' with h | h
        · subst h; exact Or.inr (Or.inl hk)
        · exact Or.inl ⟨r', h, hk⟩
      · exact Or.inr (Or.inr hs)

theorem loadCache_isSome {α : Type} (keysOf : α → List Str) (rows : List α) (k : Str) :
    (dictGet? k (loadCache keysOf rows)).isSome = true ↔ ∃ r ∈ rows, k ∈ keysOf r := by
  unfold loadCache
  rw [loadCache_foldl_isSome]
  simp [dictGet?]

theorem loadCache_foldl_preserve {α : Type} (keysOf : α → List Str) (k : Str) :
    ∀ (l : List α) (c : List (Str × α)), (∀ r' ∈ l, k ∉ keysOf r') →
      dictGet? k (l.foldl (fun c r => insertKeys (keysOf r) r c) c) = dictGet? k c
  | [], _, _ => rfl
  | r :: rest, c, h => by
    rw [List.foldl_cons,
      loadCache_foldl_preserve keysOf k rest _
        (fun r' hr' => h r' (List.mem_cons_of_mem _ hr'))]
    exact dictGet?_insertKeys_not_mem r (keysOf r) k c (h r (List.mem_cons_self _ _))

/-- The key of the last row bearing it maps to that row. -/
theorem loadCache_last {α : Type} (keysOf : α → List Str) (l1 : List α) (r : α)
    (l2 : List α) (k : Str) (hk : k ∈ keysOf r) (hl2 : ∀ r' ∈ l2, k ∉ keysOf r') :
    dictGet? k (loadCache keysOf (l1 ++ r :: l2)) = some r := by
  unfold loadCache
  rw [List.foldl_append, List.foldl_cons,
    loadCache_foldl_preserve keysOf k l2 _ hl2]
  exact dictGet?_insertKeys_mem r (keysOf r) k _ hk

/-!  The three concrete loaders are instances of `loadCache`. -/

theorem load_flavor_cache_eq (rows : List FlavorRow) :
    load_flavor_cache rows = loadCache flavorKeys rows := by
  unfold load_flavor_cache loadCache
  congr 1
  funext c r
  simp [insertFlavorRow, insertKeys, flavorKeys, List.foldl_map]

theorem load_entity_cache_eq (rows : List EntityRow) :
    load_entity_cache rows = loadCache entityKeys rows := rfl

theorem load_origin_cache_eq (rows : List OriginRow) :
    load_origin_cache rows = loadCache originKeys rows := rfl

/-- Claim C4 (amended): find_flavor_id is a pure lookup of the lowercased,
stripped query in the cache built by _load_caches, with no database access;
it succeeds exactly for query strings whose lowercased, stripped form equals
the lowercased term, the lowercased normalized_term, or a lowercased synonym
of some flavor_terms row loaded at construction. -/
theorem C4_find_flavor_id_succeeds_iff (rows : List FlavorRow) (q : Str) :
    (find_flavor_id (load_flavor_cache rows) q).isSome = true ↔
      ∃ r ∈ rows,
        pyStrip (pyLower q) = pyLower r.term ∨
          pyStrip (pyLower q) = pyLower r.normalized_term ∨
          ∃ s ∈ r.synonyms, pyStrip (pyLower q) = pyLower s := by
  unfold find_flavor_id
  rw [load_flavor_cache_eq, Option.isSome_map', loadCache_isSome]
  constructor
  · rintro ⟨r, hr, hk⟩
    refine ⟨r, hr, ?_⟩
    simp only [flavorKeys, List.mem_cons, List.mem_map] at hk
    rcases hk with h | h | ⟨s, hs, hse⟩
    · exact Or.inl h
    · exact Or.inr (Or.inl h)
    · exact Or.inr (Or.inr ⟨s, hs, hse.symm⟩)
  · rintro ⟨r, hr, hk⟩
    refine ⟨r, hr, ?_⟩
    simp only [flavorKeys, List.mem_cons, List.mem_map]
    rcases hk with h | h | ⟨s, hs, hse⟩
    · exact Or.inl h
    · exact Or.inr (Or.inl h)
    · exact Or.inr (Or.inr ⟨s, hs, hse.symm⟩)

/-- Claim C4 (counterexample): with the single row (term "chocolate"), the
query "chocolate " (trailing space) succeeds via the stripped lookup even
though it is not case-insensitively equal to the term, normalized_term, or
any synonym of any loaded row — refuting the claimed characterization. -/
theorem C4_cex :
    (find_flavor_id (load_flavor_cache fRowsA) ("chocolate ".data)).isSome = true ∧
      ∀ r ∈ fRowsA,
        ¬ (pyLower ("chocolate ".data) = pyLower r.term ∨
            pyLower ("chocolate ".data) = pyLower r.normalized_term ∨
            ∃ s ∈ r.synonyms, pyLower ("chocolate ".data) = pyLower s) := by
  decide

/-- Claim C5 (amended): after _load_caches, every key derived from a row —
its lowercased term/normalized_term/synonyms (flavors), name/slug
(entities), normalized_name/country (origins) — is present in the
respective cache, and maps to that row whenever no later-loaded row derives
the same key (a later duplicate overwrites the dict entry). -/
theorem C5_cache_coverage :
    (∀ (l1 : List FlavorRow) (r : FlavorRow) (l2 : List FlavorRow) (k : Str),
        k ∈ flavorKeys r →
          (dictGet? k (load_flavor_cache (l1 ++ r :: l2))).isSome = true ∧
            ((∀ r' ∈ l2, k ∉ flavorKeys r') →
              dictGet? k (load_flavor_cache (l1 ++ r :: l2)) = some r)) ∧
    (∀ (l1 : List EntityRow) (r : EntityRow) (l2 : List EntityRow) (k : Str),
        k ∈ entityKeys r →
          (dictGet? k (load_entity_cache (l1 ++ r :: l2))).isSome = true ∧
            ((∀ r' ∈ l2, k ∉ entityKeys r') →
              dictGet? k (load_entity_cache (l1 ++ r :: l2)) = some r)) ∧
    (∀ (l1 : List OriginRow) (r : OriginRow) (l2 : List OriginRow) (k : Str),
        k ∈ originKeys r →
          (dictGet? k (load_origin_cache (l1 ++ r :: l2))).isSome = true ∧
            ((∀ r' ∈ l2, k ∉ originKeys r') →
              dictGet? k (load_origin_cache (l1 ++ r :: l2)) = some r)) := by
  refine ⟨fun l1 r l2 k hk => ?_, fun l1 r l2 k hk => ?_, fun l1 r l2 k hk => ?_⟩
  · rw [load_flavor_cache_eq]
    exact ⟨(loadCache_isSome _ _ _).mpr ⟨r, by simp, hk⟩,
      fun h => loadCache_last _ l1 r l2 k hk h⟩
  · rw [load_entity_cache_eq]
    exact ⟨(loadCache_isSome _ _ _).mpr ⟨r, by simp, hk⟩,
      fun h => loadCache_last _ l1 r l2 k hk h⟩
  · rw [load_origin_cache_eq]
    exact ⟨(loadCache_isSome _ _ _).mpr ⟨r, by simp, hk⟩,
      fun h => loadCache_last _ l1 r l2 k hk h⟩

/-- Claim C5 (counterexample): two origins rows share country "Ethiopia";
the earlier row is not reachable in the origin cache under its lowercased
country — the key maps to the later row. -/
theorem C5_cex :
    oRowA ∈ oRowsA ∧
      dictGet? (pyLower oRowA.country) (load_origin_cache oRowsA) = some oRowB ∧
      oRowA ≠ oRowB := by decide

/-- Claim C5 (witness): the coverage theorem applied to concrete one-row
tables for each of the three caches. -/
theorem C5_cache_coverage_witness :
    ((dictGet? ("chocolate".data) (load_flavor_cache [fRowChoc])).isSome = true ∧
        dictGet? ("chocolate".data) (load_flavor_cache [fRowChoc]) = some fRowChoc) ∧
      ((dictGet? ("blue bottle".data) (load_entity_cache [eRowBlue])).isSome = true ∧
        dictGet? ("blue bottle".data) (load_entity_cache [eRowBlue]) = some eRowBlue) ∧
      ((dictGet? ("ethiopia".data) (load_origin_cache [oRowB])).isSome = true ∧
        dictGet? ("ethiopia".data) (load_origin_cache [oRowB]) = some oRowB) :=
  ⟨⟨(C5_cache_coverage.1 [] fRowChoc [] _ (by decide)).1,
      (C5_cache_coverage.1 [] fRowChoc [] _ (by decide)).2 (by decide)⟩,
    ⟨(C5_cache_coverage.2.1 [] eRowBlue [] _ (by decide)).1,
      (C5_cache_coverage.2.1 [] eRowBlue [] _ (by decide)).2 (by decide)⟩,
    ⟨(C5_cache_coverage.2.2 [] oRowB [] _ (by decide)).1,
      (C5_cache_coverage.2.2 [] oRowB [] _ (by decide)).2 (by decide)⟩⟩

/-!  The fuzzy-matching fold of find_or_create_entity either keeps its
accumulator (when no same-type item beats it) or returns some same-type
item achieving the maximal score, strictly above the accumulator's. -/

theorem bestFuzzyGo_cases (nm ty : Str) :
    ∀ (l : List (Str × EntityRow)) (b : Option EntityRow × ℚ),
      (l.foldl
          (fun acc p =>
            if p.2.entity_type ≠ ty then acc
            else if acc.2 < fuzzy_match_score nm p.1 then
              (some p.2, fuzzy_match_score nm p.1)
            else acc) b = b ∧
        ∀ p ∈ l, p.2.entity_type = ty → fuzzy_match_score nm p.1 ≤ b.2) ∨
      (∃ p ∈ l, p.2.entity_type = ty ∧
        l.foldl
          (fun acc p =>
            if p.2.entity_type ≠ ty then acc
            else if acc.2 < fuzzy_match_score nm p.1 then
              (some p.2, fuzzy_match_score nm p.1)
            else acc) b = (some p.2, fuzzy_match_score nm p.1) ∧
        b.2 < fuzzy_match_score nm p.1 ∧
        ∀ q ∈ l, q.2.entity_type = ty →
          fuzzy_match_score nm q.1 ≤ fuzzy_match_score nm p.1)
  | [], b => Or.inl ⟨rfl, by simp⟩
  | p :: rest, b => by
    rw [List.foldl_cons]
    by_cases hty : p.2.entity_type = ty
    · by_cases hlt : b.2 < fuzzy_match_score nm p.1
      · have hstep :
            (if p.2.entity_type ≠ ty then b
              else if b.2 < fuzzy_match_score nm p.1 then
                (some p.2, fuzzy_match_score nm p.1)
              else b) = (some p.2, fuzzy_match_score nm p.1) := by
          simp [hty, hlt]
        rw [hstep]
        rcases bestFuzzyGo_cases nm ty rest (some p.2, fuzzy_match_score nm p.1) with
          ⟨he, hb⟩ | ⟨p', hp', hty', heq, hlt', hmax⟩
        · refine Or.inr ⟨p, List.mem_cons_self _ _, hty, he, hlt, ?_⟩
          intro q hq hqty
          rcases List.mem_cons.mp hq with h | h
          · subst h; exact le_refl _
          · exact hb q h hqty
        · refine Or.inr ⟨p', List.mem_cons_of_mem _ hp', hty', heq,
            lt_trans hlt hlt', ?_⟩
          intro q hq hqty
          rcases List.mem_cons.mp hq with h | h
          · subst h; exact le_of_lt hlt'
          · exact hmax q h hqty
      · have hstep :
            (if p.2.entity_type ≠ ty then b
              else if b.2 < fuzzy_match_score nm p.1 then
                (some p.2, fuzzy_match_score nm p.1)
              else b) = b := by
          simp [hty, hlt]
        rw [hstep]
        rcases bestFuzzyGo_cases nm ty rest b with
          ⟨he, hb⟩ | ⟨p', hp', hty', heq, hlt', hmax⟩
        · refine Or.inl ⟨he, ?_⟩
          intro q hq hqty
          rcases List.mem_cons.mp hq with h | h
          · subst h; exact not_lt.mp hlt
          · exact hb q h hqty
        · refine Or.inr ⟨p', List.mem_cons_of_mem _ hp', hty', heq, hlt', ?_⟩
          intro q hq hqty
          rcases List.mem_cons.mp hq with h | h
          · subst h; exact le_trans (not_lt.mp hlt) (le_of_lt hlt')
          · exact hmax q h hqty
    · have hstep :
          (if p.2.entity_type ≠ ty then b
            else if b.2 < fuzzy_match_score nm p.1 then
              (some p.2, fuzzy_match_score nm p.1)
            else b) = b := by
        simp [hty]
      rw [hstep]
      rcases bestFuzzyGo_cases nm ty rest b with
        ⟨he, hb⟩ | ⟨p', hp', hty', heq, hlt', hmax⟩
      · refine Or.inl ⟨he, ?_⟩
        intro q hq hqty
        rcases List.mem_cons.mp hq with h | h
        · subst h; exact absurd hqty hty
        · exact hb q h hqty
      · refine Or.inr ⟨p', List.mem_cons_of_mem _ hp', hty', heq, hlt', ?_⟩
        intro q hq hqty
        rcases List.mem_cons.mp hq with h | h
        · subst h; exact absurd hqty hty
        · exact hmax q h hqty

theorem bestFuzzy_cases (nm ty : Str) (cache : EntityCache) :
    (bestFuzzy nm ty cache = (none, 0) ∧
      ∀ p ∈ cache, p.2.entity_type = ty → fuzzy_match_score nm p.1 ≤ 0) ∨
    (∃ p ∈ cache, p.2.entity_type = ty ∧
      bestFuzzy nm ty cache = (some p.2, fuzzy_match_score nm p.1) ∧
      ∀ q ∈ cache, q.2.entity_type = ty →
        fuzzy_match_score nm q.1 ≤ fuzzy_match_score nm p.1) := by
  unfold bestFuzzy
  rcases bestFuzzyGo_cases nm ty cache (none, 0) with ⟨he, hb⟩ |
    ⟨p, hp, hty, heq, _, hmax⟩
  · exact Or.inl ⟨he, hb⟩
  · exact Or.inr ⟨p, hp, hty, heq, hmax⟩

/-- Claim C1 (amended): find_or_create_entity deduplicates by fuzzy
matching: an exact cache hit on the normalized name returns the cached id
unchanged; otherwise, if some same-type cached entry scores strictly above
0.85 against the normalized name, the id of a maximal-scoring such entry is
returned and nothing changes; otherwise the entities upsert runs — when the
computed slug is fresh a new row is inserted and its new id returned, and
when the slug already exists that row's name is rewritten and its existing
id returned (no new row) — and in both upsert cases the normalized name is
cached, mapping to the returned id. -/
theorem C1_find_or_create_entity (entity_name entity_type : Str)
    (cache : EntityCache) (tbl : EntitiesTable) :
    (∀ row, dictGet? (normalize_name entity_name) cache = some row →
      find_or_create_entity entity_name entity_type cache tbl =
        (row.id, cache, tbl)) ∧
    (dictGet? (normalize_name entity_name) cache = none →
      (∃ p ∈ cache, p.2.entity_type = entity_type ∧
          mkRat 17 20 < fuzzy_match_score (normalize_name entity_name) p.1) →
      ∃ p ∈ cache, p.2.entity_type = entity_type ∧
        mkRat 17 20 < fuzzy_match_score (normalize_name entity_name) p.1 ∧
        find_or_create_entity entity_name entity_type cache tbl =
          (p.2.id, cache, tbl) ∧
        ∀ q ∈ cache, q.2.entity_type = entity_type →
          fuzzy_match_score (normalize_name entity_name) q.1 ≤
            fuzzy_match_score (normalize_name entity_name) p.1) ∧
    (dictGet? (normalize_name entity_name) cache = none →
      (∀ p ∈ cache, p.2.entity_type = entity_type →
          fuzzy_match_score (normalize_name entity_name) p.1 ≤ mkRat 17 20) →
      ((∀ x ∈ tbl.rows, ¬ x.slug = slug_of entity_name) →
        find_or_create_entity entity_name entity_type cache tbl =
          (tbl.nextId,
            dictInsert (normalize_name entity_name)
              ⟨tbl.nextId, entity_name, slug_of entity_name, entity_type⟩ cache,
            ⟨tbl.rows ++
                [⟨tbl.nextId, entity_name, slug_of entity_name, entity_type⟩],
              tbl.nextId + 1⟩)) ∧
      (∀ x, tbl.rows.find? (fun y => y.slug = slug_of entity_name) = some x →
        (find_or_create_entity entity_name entity_type cache tbl).1 = x.id ∧
        ((find_or_create_entity entity_name entity_type cache tbl).2.2).rows.length
          = tbl.rows.length ∧
        dictGet? (normalize_name entity_name)
            (find_or_create_entity entity_name entity_type cache tbl).2.1 =
          some ⟨x.id, entity_name, slug_of entity_name, entity_type⟩)) := by
  refine ⟨?_, ?_, ?_⟩
  · intro row hd
    unfold find_or_create_entity
    rw [hd]
  · intro hd ⟨p0, hp0, hty0, hgt0⟩
    unfold find_or_create_entity
    rw [hd]
    rcases bestFuzzy_cases (normalize_name entity_name) entity_type cache with
      ⟨_, hb⟩ | ⟨p, hp, hty, heq, hmax⟩
    · exact absurd hgt0 (not_lt.mpr ((hb p0 hp0 hty0).trans (by norm_num)))
    · have hgt : mkRat 17 20 < fuzzy_match_score (normalize_name entity_name) p.1 :=
        lt_of_lt_of_le hgt0 (hmax p0 hp0 hty0)

      rw [heq]
      refine ⟨p, hp, hty, hgt, ?_, hmax⟩
      simp [hgt]
  · intro hd hle
    have hcreate : find_or_create_entity entity_name entity_type cache tbl =
        foceCreate entity_name entity_type (normalize_name entity_name) cache tbl := by
      unfold find_or_create_entity
      rw [hd]
      rcases bestFuzzy_cases (normalize_name entity_name) entity_type cache with
        ⟨heq, _⟩ | ⟨p, hp, hty, heq, _⟩
      · rw [heq]
      · rw [heq]
        simp [not_lt.mpr (hle p hp hty)]
    constructor
    · intro hfresh
      have hnone : tbl.rows.find? (fun y => y.slug = slug_of entity_name) = none := by
        rw [List.find?_eq_none]
        intro x hx
        simp [hfresh x hx]
      have hup : entitiesUpsert tbl entity_type entity_name (slug_of entity_name) =
          (tbl.nextId,
            ⟨tbl.rows ++
                [⟨tbl.nextId, entity_name, slug_of entity_name, entity_type⟩],
              tbl.nextId + 1⟩) := by
        unfold entitiesUpsert
        rw [hnone]
      rw [hcreate]
      unfold foceCreate
      rw [hup]
    · intro x hx
      have hup : entitiesUpsert tbl entity_type entity_name (slug_of entity_name) =
          (x.id,
            ⟨tbl.rows.map
                (fun y =>
                  if y.slug = slug_of entity_name then { y with name := entity_name }
                  else y),
              tbl.nextId⟩) := by
        unfold entitiesUpsert
        rw [hx]
      rw [hcreate]
      unfold foceCreate
      rw [hup]
      exact ⟨rfl, by simp, dictGet?_insert_same _ _ _⟩

/-- Claim C1 (counterexample): cache holds the roaster "A-B" under key
"a-b"; looking up "a b" misses exactly (normalized "a b" is not a key) and
scores only 2/3 by fuzzy matching, yet the create path hits the slug
conflict ("a b" slugifies to "a-b"), so no new entities row is inserted and
the pre-existing row's id is returned — refuting "only when no cached key
scores above 0.85 does it insert a new entities row and return its id". -/
theorem C1_cex :
    dictGet? (normalize_name ("a b".data)) eCacheAB = none ∧
      (∀ p ∈ eCacheAB,
        fuzzy_match_score (normalize_name ("a b".data)) p.1 ≤ mkRat 17 20) ∧
      (find_or_create_entity ("a b".data) ("roaster".data) eCacheAB eTblAB).1 = 1 ∧
      ((find_or_create_entity ("a b".data) ("roaster".data) eCacheAB
            eTblAB).2.2).rows.length = 1 := by
  decide

/-- Claim C1 (witness): the characterization applied on all three branches:
an exact hit, a fuzzy match above 0.85, and a fresh-slug insert. -/
theorem C1_witness :
    (find_or_create_entity ("Blue Bottle".data) ("roaster".data)
        [("blue bottle".data, eRowBlue)] ⟨[eRowBlue], 4⟩ =
      (3, [("blue bottle".data, eRowBlue)], ⟨[eRowBlue], 4⟩)) ∧
    (∃ p ∈ eCacheLong, p.2.entity_type = ("roaster".data) ∧
      mkRat 17 20 < fuzzy_match_score (normalize_name ("abcdefghi".data)) p.1 ∧
      find_or_create_entity ("abcdefghi".data) ("roaster".data) eCacheLong
          eTblLong = (p.2.id, eCacheLong, eTblLong) ∧
      ∀ q ∈ eCacheLong, q.2.entity_type = ("roaster".data) →
        fuzzy_match_score (normalize_name ("abcdefghi".data)) q.1 ≤
          fuzzy_match_score (normalize_name ("abcdefghi".data)) p.1) ∧
    (find_or_create_entity ("Onyx".data) ("roaster".data) [] ⟨[], 7⟩ =
      (7, dictInsert (normalize_name ("Onyx".data))
            ⟨7, "Onyx".data, slug_of ("Onyx".data), "roaster".data⟩ [],
        ⟨[⟨7, "Onyx".data, slug_of ("Onyx".data), "roaster".data⟩], 8⟩)) :=
  ⟨(C1_find_or_create_entity ("Blue Bottle".data) ("roaster".data)
      [("blue bottle".data, eRowBlue)] ⟨[eRowBlue], 4⟩).1 eRowBlue (by decide),
    (C1_find_or_create_entity ("abcdefghi".data) ("roaster".data) eCacheLong
      eTblLong).2.1 (by decide) (by decide),
    ((C1_find_or_create_entity ("Onyx".data) ("roaster".data) [] ⟨[], 7⟩).2.2
      (by decide) (by decide)).1 (by decide)⟩

/-- Claim C10 (amended): find_or_create_entity is idempotent per linker
instance: rerunning it on the state a first call produced returns the same
id and changes neither the cache nor the table.  After an exact hit or a
create the normalized name is cached and the second call is an exact hit;
after a fuzzy match the cache is unchanged (the normalized name is NOT
added) and the second call repeats the same fuzzy match. -/
theorem C10_find_or_create_entity_idem (entity_name entity_type : Str)
    (cache : EntityCache) (tbl : EntitiesTable) :
    find_or_create_entity entity_name entity_type
        (find_or_create_entity entity_name entity_type cache tbl).2.1
        (find_or_create_entity entity_name entity_type cache tbl).2.2 =
      find_or_create_entity entity_name entity_type cache tbl := by
  cases hd : dictGet? (normalize_name entity_name) cache with
  | some row =>
    have h1 : find_or_create_entity entity_name entity_type cache tbl =
        (row.id, cache, tbl) := by
      unfold find_or_create_entity
      rw [hd]
    rw [h1]
    unfold find_or_create_entity
    rw [hd]
  | none =>
    rcases hbf : bestFuzzy (normalize_name entity_name) entity_type cache with ⟨o, bs⟩
    cases o with
    | some r =>
      by_cases hlt : mkRat 17 20 < bs
      · have h1 : find_or_create_entity entity_name entity_type cache tbl =
            (r.id, cache, tbl) := by
          unfold find_or_create_entity
          rw [hd, hbf]
          simp [hlt]
        rw [h1]
        unfold find_or_create_entity
        rw [hd, hbf]
        simp [hlt]
      · have h1 : find_or_create_entity entity_name entity_type cache tbl =
            foceCreate entity_name entity_type (normalize_name entity_name)
              cache tbl := by
          unfold find_or_create_entity
          rw [hd, hbf]
          simp [hlt]
        rw [h1]
        unfold find_or_create_entity foceCreate
        rw [dictGet?_insert_same]
    | none =>
      have h1 : find_or_create_entity entity_name entity_type cache tbl =
          foceCreate entity_name entity_type (normalize_name entity_name)
            cache tbl := by
        unfold find_or_create_entity
        rw [hd, hbf]
      rw [h1]
      unfold find_or_create_entity foceCreate
      rw [dictGet?_insert_same]

/-- Claim C10 (counterexample): a fuzzy-matched call (name "abcdefghi"
against cached "abcdefghij", ratio 18/19 > 0.85) returns id 5 but does not
add the normalized name to the cache, refuting "the normalized name is a
key of the in-memory entity cache mapping to e" after every successful
call. -/
theorem C10_cex :
    (find_or_create_entity ("abcdefghi".data) ("roaster".data) eCacheLong
        eTblLong).1 = 5 ∧
      dictGet? (normalize_name ("abcdefghi".data))
          (find_or_create_entity ("abcdefghi".data) ("roaster".data) eCacheLong
            eTblLong).2.1 = none := by
  decide

/-!  link_flavors lemmas. -/

theorem feInsert_mono (t : List FERow) (r : FERow) :
    ∀ x ∈ t, x ∈ (feInsert t r).1 := by
  intro x hx
  unfold feInsert
  by_cases hc : t.any (fun y => feSameKey y r)
  · simp [hc, hx]
  · simp only [hc, Bool.false_eq_true, if_false]
    exact List.mem_append_left _ hx

theorem linkFlavorsGo_ok_terms (cache : FlavorCache) (prid : Nat) (postId : Str)
    (allFds : List FlavorData) :
    ∀ (l : List FlavorData) (t : List FERow) (acc : List Nat)
      (tr : List (FlavorData × FERow)) (ids : List Nat) (t' : List FERow)
      (tr' : List (FlavorData × FERow)),
      linkFlavorsGo cache prid postId allFds l t acc tr = .ok (ids, t', tr') →
      ∀ fd ∈ l, fd.term.isSome = true := by
  intro l
  induction l with
  | nil =>
    intro t acc tr ids t' tr' _ fd hfd
    simp at hfd
  | cons fd0 rest ih =>
    intro t acc tr ids t' tr' h fd hfd
    cases hterm : fd0.term with
    | none =>
      simp only [linkFlavorsGo, hterm] at h
      exact Except.noConfusion h
    | some term =>
      rcases List.mem_cons.mp hfd with rfl | hmem
      · simp [hterm]
      · cases hfind : find_flavor_id cache term with
        | none =>
          simp only [linkFlavorsGo, hterm, hfind] at h
          exact ih _ _ _ _ _ _ h fd hmem
        | some fid =>
          simp only [linkFlavorsGo, hterm, hfind] at h
          by_cases hfid : fid = 0
          · rw [if_pos hfid] at h
            exact ih _ _ _ _ _ _ h fd hmem
          · rw [if_neg hfid] at h
            exact ih _ _ _ _ _ _ h fd hmem

theorem linkFlavorsGo_mono (cache : FlavorCache) (prid : Nat) (postId : Str)
    (allFds : List FlavorData) :
    ∀ (l : List FlavorData) (t : List FERow) (acc : List Nat)
      (tr : List (FlavorData × FERow)) (ids : List Nat) (t' : List FERow)
      (tr' : List (FlavorData × FERow)),
      linkFlavorsGo cache prid postId allFds l t acc tr = .ok (ids, t', tr') →
      ∀ x ∈ t, x ∈ t' := by
  intro l
  induction l with
  | nil =>
    intro t acc tr ids t' tr' h x hx
    rw [linkFlavorsGo] at h
    simp only [Except.ok.injEq, Prod.mk.injEq] at h
    rw [← h.2.1]
    exact hx
  | cons fd0 rest ih =>
    intro t acc tr ids t' tr' h x hx
    cases hterm : fd0.term with
    | none =>
      simp only [linkFlavorsGo, hterm] at h
      exact Except.noConfusion h
    | some term =>
      cases hfind : find_flavor_id cache term with
      | none =>
        simp only [linkFlavorsGo, hterm, hfind] at h
        exact ih _ _ _ _ _ _ h x hx
      | some fid =>
        simp only [linkFlavorsGo, hterm, hfind] at h
        by_cases hfid : fid = 0
        · rw [if_pos hfid] at h
          exact ih _ _ _ _ _ _ h x hx
        · rw [if_neg hfid] at h
          exact ih _ _ _ _ _ _ h x
            (feInsert_mono t (mkFERow prid postId fid fd0 (pyIndex allFds fd0 + 1)) x hx)

theorem linkFlavorsGo_covers (cache : FlavorCache) (prid : Nat) (postId : Str)
    (allFds : List FlavorData) :
    ∀ (l : List FlavorData) (t : List FERow) (acc : List Nat)
      (tr : List (FlavorData × FERow)) (ids : List Nat) (t' : List FERow)
      (tr' : List (FlavorData × FERow)),
      linkFlavorsGo cache prid postId allFds l t acc tr = .ok (ids, t', tr') →
      ∀ fd ∈ l, ∀ term fid, fd.term = some term →
        find_flavor_id cache term = some fid → fid ≠ 0 →
        feKeyCovered t' prid postId fid := by
  intro l
  induction l with
  | nil =>
    intro t acc tr ids t' tr' _ fd hfd
    simp at hfd
  | cons fd0 rest ih =>
    intro t acc tr ids t' tr' h fd hfd term fid hterm hfind hfid
    rcases List.mem_cons.mp hfd with rfl | hmem
    · simp only [linkFlavorsGo, hterm, hfind] at h
      rw [if_neg hfid] at h
      have hmem1 :
          ∀ y ∈ (feInsert t (mkFERow prid postId fid fd (pyIndex allFds fd + 1))).1,
            y ∈ t' := fun y hy => linkFlavorsGo_mono cache prid postId allFds
              rest _ _ _ _ _ _ h y hy
      unfold feInsert at hmem1
      by_cases hc : t.any
          (fun y => feSameKey y (mkFERow prid postId fid fd (pyIndex allFds fd + 1)))
      · rcases List.any_eq_true.mp hc with ⟨x, hxt, hxk⟩
        simp only [feSameKey, mkFERow, Bool.decide_and, Bool.and_eq_true,
          decide_eq_true_eq] at hxk
        exact ⟨x, hmem1 x (by simp [hc, hxt]), hxk.1, hxk.2.1, hxk.2.2⟩
      · refine ⟨mkFERow prid postId fid fd (pyIndex allFds fd + 1),
          hmem1 _ (by simp [hc]), rfl, rfl, rfl⟩
    · cases hterm0 : fd0.term with
      | none =>
        simp only [linkFlavorsGo, hterm0] at h
        exact Except.noConfusion h
      | some term0 =>
        cases hfind0 : find_flavor_id cache term0 with
        | none =>
          simp only [linkFlavorsGo, hterm0, hfind0] at h
          exact ih _ _ _ _ _ _ h fd hmem term fid hterm hfind hfid
        | some fid0 =>
          simp only [linkFlavorsGo, hterm0, hfind0] at h
          by_cases hfid0 : fid0 = 0
          · rw [if_pos hfid0] at h
            exact ih _ _ _ _ _ _ h fd hmem term fid hterm hfind hfid
          · rw [if_neg hfid0] at h
            exact ih _ _ _ _ _ _ h fd hmem term fid hterm hfind hfid

theorem linkFlavorsGo_noop (cache : FlavorCache) (prid : Nat) (postId : Str)
    (allFds : List FlavorData) :
    ∀ (l : List FlavorData) (t : List FERow) (acc : List Nat)
      (tr : List (FlavorData × FERow)),
      (∀ fd ∈ l, fd.term.isSome = true) →
      (∀ fd ∈ l, ∀ term fid, fd.term = some term →
        find_flavor_id cache term = some fid → fid ≠ 0 →
        feKeyCovered t prid postId fid) →
      ∃ tr', linkFlavorsGo cache prid postId allFds l t acc tr =
        .ok (acc.reverse, t, tr') := by
  intro l
  induction l with
  | nil =>
    intro t acc tr _ _
    exact ⟨tr.reverse, by rw [linkFlavorsGo]⟩
  | cons fd0 rest ih =>
    intro t acc tr hterms hcov
    cases hterm : fd0.term with
    | none =>
      have := hterms fd0 (List.mem_cons_self _ _)
      rw [hterm] at this
      simp at this
    | some term =>
      cases hfind : find_flavor_id cache term with
      | none =>
        rcases ih t acc tr
            (fun fd hfd => hterms fd (List.mem_cons_of_mem _ hfd))
            (fun fd hfd => hcov fd (List.mem_cons_of_mem _ hfd)) with ⟨tr', htr'⟩
        exact ⟨tr', by simp only [linkFlavorsGo, hterm, hfind]; exact htr'⟩
      | some fid =>
        by_cases hfid : fid = 0
        · rcases ih t acc tr
              (fun fd hfd => hterms fd (List.mem_cons_of_mem _ hfd))
              (fun fd hfd => hcov fd (List.mem_cons_of_mem _ hfd)) with ⟨tr', htr'⟩
          exact ⟨tr',
            by simp only [linkFlavorsGo, hterm, hfind]; rw [if_pos hfid]; exact htr'⟩
        · have hcv : feKeyCovered t prid postId fid :=
            hcov fd0 (List.mem_cons_self _ _) term fid hterm hfind hfid
          have hany : t.any
              (fun y => feSameKey y (mkFERow prid postId fid fd0
                (pyIndex allFds fd0 + 1))) = true := by
            rcases hcv with ⟨x, hxt, h1, h2, h3⟩
            exact List.any_eq_true.mpr ⟨x, hxt, by
              simp [feSameKey, mkFERow, h1, h2, h3]⟩
          have hins : feInsert t (mkFERow prid postId fid fd0
              (pyIndex allFds fd0 + 1)) = (t, false) := by
            unfold feInsert
            rw [if_pos hany]
          rcases ih t acc ((fd0, mkFERow prid postId fid fd0
              (pyIndex allFds fd0 + 1)) :: tr)
              (fun fd hfd => hterms fd (List.mem_cons_of_mem _ hfd))
              (fun fd hfd => hcov fd (List.mem_cons_of_mem _ hfd)) with ⟨tr', htr'⟩
          refine ⟨tr', ?_⟩
          simp only [linkFlavorsGo, hterm, hfind]
          rw [if_neg hfid]
          simp only [hins]
          exact htr'

/-- Claim C2: link_flavors is idempotent on the flavor_extractions state:
if a first run with given arguments succeeds producing table t', a second
run with the same arguments on t' conflicts on every insert (ON CONFLICT DO
NOTHING fires, RETURNING yields no row), leaves the table unchanged and
returns an empty list of linked flavor ids. -/
theorem C2_link_flavors_idempotent (cache : FlavorCache) (prid : Nat)
    (postId : Str) (fds : List FlavorData) (t : List FERow) (ids : List Nat)
    (t' : List FERow) (tr : List (FlavorData × FERow))
    (h : link_flavors cache prid postId fds t = .ok (ids, t', tr)) :
    ∃ tr2, link_flavors cache prid postId fds t' = .ok ([], t', tr2) := by
  unfold link_flavors at h ⊢
  by_cases hemp : fds.isEmpty
  · rw [if_pos hemp] at h
    simp only [Except.ok.injEq, Prod.mk.injEq] at h
    rw [if_pos hemp, ← h.2.1]
    exact ⟨[], rfl⟩
  · rw [if_neg hemp] at h
    rw [if_neg hemp]
    have hterms := linkFlavorsGo_ok_terms cache prid postId fds fds t [] [] ids t' tr h
    have hcov := linkFlavorsGo_covers cache prid postId fds fds t [] [] ids t' tr h
    rcases linkFlavorsGo_noop cache prid postId fds fds t' [] [] hterms
        (fun fd hfd term fid h1 h2 h3 => hcov fd hfd term fid h1 h2 h3) with ⟨tr2, htr2⟩
    exact ⟨tr2, htr2⟩

/-- Claim C2 (witness): a concrete first run inserts the berry row; the
repeat run returns no linked ids and leaves the table unchanged. -/
theorem C2_witness :
    (link_flavors fCacheBerry 1 ("p1".data) [fdBerry] [] =
        .ok ([7], [mkFERow 1 ("p1".data) 7 fdBerry 1],
          [(fdBerry, mkFERow 1 ("p1".data) 7 fdBerry 1)])) ∧
      ∃ tr2, link_flavors fCacheBerry 1 ("p1".data) [fdBerry]
          [mkFERow 1 ("p1".data) 7 fdBerry 1] =
        .ok ([], [mkFERow 1 ("p1".data) 7 fdBerry 1], tr2) :=
  ⟨rfl, C2_link_flavors_idempotent fCacheBerry 1 ("p1".data) [fdBerry] [] [7]
    [mkFERow 1 ("p1".data) 7 fdBerry 1]
    [(fdBerry, mkFERow 1 ("p1".data) 7 fdBerry 1)] rfl⟩

/-!  Claim C9: mention_order of every attempted insert. -/

theorem linkFlavorsGo_order (cache : FlavorCache) (prid : Nat) (postId : Str)
    (allFds : List FlavorData) :
    ∀ (l : List FlavorData) (t : List FERow) (acc : List Nat)
      (tr : List (FlavorData × FERow)) (ids : List Nat) (t' : List FERow)
      (tr' : List (FlavorData × FERow)),
      linkFlavorsGo cache prid postId allFds l t acc tr = .ok (ids, t', tr') →
      (∀ p ∈ tr, p.2.mention_order = pyIndex allFds p.1 + 1) →
      ∀ p ∈ tr', p.2.mention_order = pyIndex allFds p.1 + 1 := by
  intro l
  induction l with
  | nil =>
    intro t acc tr ids t' tr' h htr p hp
    rw [linkFlavorsGo] at h
    simp only [Except.ok.injEq, Prod.mk.injEq] at h
    rw [← h.2.2] at hp
    exact htr p (List.mem_reverse.mp hp)
  | cons fd0 rest ih =>
    intro t acc tr ids t' tr' h htr p hp
    cases hterm : fd0.term with
    | none =>
      simp only [linkFlavorsGo, hterm] at h
      exact Except.noConfusion h
    | some term =>
      cases hfind : find_flavor_id cache term with
      | none =>
        simp only [linkFlavorsGo, hterm, hfind] at h
        exact ih _ _ _ _ _ _ h htr p hp
      | some fid =>
        simp only [linkFlavorsGo, hterm, hfind] at h
        by_cases hfid : fid = 0
        · rw [if_pos hfid] at h
          exact ih _ _ _ _ _ _ h htr p hp
        · rw [if_neg hfid] at h
          refine ih _ _ _ _ _ _ h ?_ p hp
          intro q hq
          rcases List.mem_cons.mp hq with rfl | hqm
          · rfl
          · exact htr q hqm

/-- Claim C9 (amended): every INSERT that link_flavors executes carries
mention_order equal to one plus the index of the FIRST occurrence of its
flavor dict in extracted_flavors (list.index); in particular two equal
dicts yield two insert attempts with the same mention_order, so the second
conflicts and only one row is stored. -/
theorem C9_mention_order (cache : FlavorCache) (prid : Nat) (postId : Str)
    (fds : List FlavorData) (t : List FERow) (ids : List Nat)
    (t' : List FERow) (tr : List (FlavorData × FERow))
    (h : link_flavors cache prid postId fds t = .ok (ids, t', tr)) :
    ∀ p ∈ tr, p.2.mention_order = pyIndex fds p.1 + 1 := by
  unfold link_flavors at h
  by_cases hemp : fds.isEmpty
  · rw [if_pos hemp] at h
    simp only [Except.ok.injEq, Prod.mk.injEq] at h
    rw [← h.2.2]
    intro p hp
    simp at hp
  · rw [if_neg hemp] at h
    exact linkFlavorsGo_order cache prid postId fds fds t [] [] ids t' tr h
      (by simp)

/-- Claim C9 (counterexample): the same flavor dict listed twice produces
two insert attempts that both carry mention_order 1 (the first occurrence's
position), the second conflicts with the first, and only one row is stored
— the claimed second row does not exist. -/
theorem C9_cex :
    link_flavors fCacheBerry 1 ("p1".data) [fdBerry, fdBerry] [] =
      .ok ([7], [mkFERow 1 ("p1".data) 7 fdBerry 1],
        [(fdBerry, mkFERow 1 ("p1".data) 7 fdBerry 1),
          (fdBerry, mkFERow 1 ("p1".data) 7 fdBerry 1)]) := rfl

/-- Claim C9 (witness): the order theorem applied to the concrete
two-duplicate run, instantiated at its first attempted insert. -/
theorem C9_witness :
    (mkFERow 1 ("p1".data) 7 fdBerry 1).mention_order =
      pyIndex [fdBerry, fdBerry] fdBerry + 1 :=
  C9_mention_order fCacheBerry 1 ("p1".data) [fdBerry, fdBerry] [] [7]
    [mkFERow 1 ("p1".data) 7 fdBerry 1]
    [(fdBerry, mkFERow 1 ("p1".data) 7 fdBerry 1),
      (fdBerry, mkFERow 1 ("p1".data) 7 fdBerry 1)] rfl
    (fdBerry, mkFERow 1 ("p1".data) 7 fdBerry 1) (by decide)

/-- Claim C8 (amended): whenever the broad except handler of
link_single_review fires, the connection is rolled back — the resulting
current view equals the state committed before the call, which is left
unchanged — and no exception is re-raised; the returned statistics are
those accumulated before the failing step, so they are all zero exactly
when the failure precedes flavor linking (e.g. link_flavors raising on a
flavor dict with no term key). -/
theorem C8_link_single_review (review : PRRow) (st : LinkerState) :
    ((link_single_review review st).2.1 = true →
      (link_single_review review st).2.2.current = st.committed ∧
        (link_single_review review st).2.2.committed = st.committed) ∧
    (∀ ed, getExtractedData st.current.nlp_extractions review.id = some ed →
      link_flavors st.flavor_cache review.id review.post_id ed.flavors
          st.current.flavor_extractions = .error () →
      (link_single_review review st).1 = zeroStats ∧
        (link_single_review review st).2.1 = true) := by
  cases hed : getExtractedData st.current.nlp_extractions review.id with
  | none =>
    constructor
    · intro hr
      simp only [link_single_review, hed] at hr
      exact Bool.noConfusion hr
    · intro ed hed' _
      exact Option.noConfusion hed'
  | some ed =>
    cases hlf : link_flavors st.flavor_cache review.id review.post_id ed.flavors
        st.current.flavor_extractions with
    | error e =>
      constructor
      · intro _
        simp only [link_single_review, hed, hlf]
        exact ⟨rfl, rfl⟩
      · intro ed' hed' hlf'
        simp [link_single_review, hed, hlf]
    | ok q =>
      cases hlr : link_roasters review.post_id ed.roasters st.entity_cache
          st.current.entities st.current.coffee_mentions with
      | error e =>
        constructor
        · intro _
          simp only [link_single_review, hed, hlf, hlr]
          exact ⟨rfl, rfl⟩
        · intro ed' hed' hlf'
          injection hed' with hh
          subst hh
          rw [hlf] at hlf'
          exact Except.noConfusion hlf'
      | ok r =>
        constructor
        · intro hr
          simp only [link_single_review, hed, hlf, hlr] at hr
          exact Bool.noConfusion hr
        · intro ed' hed' hlf'
          injection hed' with hh
          subst hh
          rw [hlf] at hlf'
          exact Except.noConfusion hlf'

/-- Claim C8 (counterexample): review 1 has one known flavor and a roaster
dict without a name key; flavor linking succeeds, then link_roasters
raises, the handler rolls back — but the returned statistics are
(1, 0, 0, 0), not all four zero as claimed. -/
theorem C8_cex :
    (link_single_review rvOne stNoName).1 = ⟨1, 0, 0, 0⟩ ∧
      (link_single_review rvOne stNoName).2.1 = true ∧
      (link_single_review rvOne stNoName).2.2.current = stNoName.committed :=
  ⟨rfl, rfl, rfl⟩

/-- Claim C8 (witness): the rollback theorem applied to the roaster-failure
state and, for the all-zero-stats part, to a state whose flavor dict lacks
the term key. -/
theorem C8_witness :
    ((link_single_review rvOne stNoName).2.2.current = stNoName.committed ∧
        (link_single_review rvOne stNoName).2.2.committed = stNoName.committed) ∧
      ((link_single_review rvOne stNoTerm).1 = zeroStats ∧
        (link_single_review rvOne stNoTerm).2.1 = true) :=
  ⟨(C8_link_single_review rvOne stNoName).1 rfl,
    (C8_link_single_review rvOne stNoTerm).2 edNoTerm rfl rfl⟩

/-!  process_batch commit schedule. -/

theorem processBatchGo_trace :
    ∀ (l : List PRRow) (i : Nat) (st : LinkerState) (tr : List Nat),
      (processBatchGo l i st tr).2 =
        tr.reverse ++ (List.range' i l.length).filter (fun j => j % 10 = 0) := by
  intro l
  induction l with
  | nil =>
    intro i st tr
    simp [processBatchGo]
  | cons r rest ih =>
    intro i st tr
    by_cases hi : i % 10 = 0
    · simp only [processBatchGo]
      rw [if_pos hi, ih]
      simp [List.range'_succ, hi]
    · simp only [processBatchGo]
      rw [if_neg hi, ih]
      simp [List.range'_succ, hi]

/-- Claim C6 (amended): on a nonempty batch, process_batch commits exactly
at the loop indices divisible by 10 and once more after the loop, returns
the batch size, and leaves the connection with its current view committed
(an empty batch returns 0 before the loop, without committing). -/
theorem C6_process_batch (reviews : List PRRow) (st : LinkerState)
    (hne : reviews ≠ []) :
    (process_batch reviews st).2.1 = reviews.length ∧
      (process_batch reviews st).2.2 =
        (List.range' 1 reviews.length).filter (fun j => j % 10 = 0) ++
          [reviews.length] ∧
      (process_batch reviews st).1.current = (process_batch reviews st).1.committed := by
  have hemp : reviews.isEmpty = false := by
    cases reviews with
    | nil => exact absurd rfl hne
    | cons a l => rfl
  unfold process_batch
  rw [hemp]
  refine ⟨rfl, ?_, rfl⟩
  show (processBatchGo reviews 1 st []).2 ++ [reviews.length] = _
  rw [processBatchGo_trace reviews 1 st []]
  simp

/-- Claim C6 (counterexample): on an empty batch process_batch returns 0
immediately: no commit runs at all (the trace is empty and a state whose
current view differs from its committed view is returned unchanged), so
the claimed commit "after the loop completes" does not happen. -/
theorem C6_cex :
    process_batch [] stDirty = (stDirty, 0, []) ∧
      stDirty.current ≠ stDirty.committed :=
  ⟨rfl, by decide⟩

/-- Claim C6 (witness): a batch of 12 no-extraction reviews commits at
loop index 10 and finally at 12, returns 12, and ends fully committed. -/
theorem C6_witness :
    (process_batch rvs12 stDirty).2.1 = 12 ∧
      (process_batch rvs12 stDirty).2.2 = [10, 12] ∧
      (process_batch rvs12 stDirty).1.current =
        (process_batch rvs12 stDirty).1.committed := by
  have h := C6_process_batch rvs12 stDirty (by decide)
  exact ⟨h.1, h.2.1.trans (by decide), h.2.2⟩

/-!  Aggregation lemmas: the rank-row upsert and rank assignment. -/

theorem rankKey_iff {r g : RankRow} :
    rankKey r g = true ↔
      r.flavor_id = g.flavor_id ∧ r.period_start = g.period_start ∧
        r.period_end = g.period_end ∧ r.period_type = g.period_type := by
  simp [rankKey]

theorem rankKey_refl (g : RankRow) : rankKey g g = true := by
  simp [rankKey]

theorem rankKey_symm {a b : RankRow} (h : rankKey a b = true) :
    rankKey b a = true := by
  rw [rankKey_iff] at h ⊢
  exact ⟨h.1.symm, h.2.1.symm, h.2.2.1.symm, h.2.2.2.symm⟩

theorem rankKey_trans {r a b : RankRow} (h1 : rankKey r a = true)
    (h2 : rankKey r b = true) : rankKey a b = true := by
  rw [rankKey_iff] at h1 h2 ⊢
  exact ⟨h1.1.symm.trans h2.1, h1.2.1.symm.trans h2.2.1,
    h1.2.2.1.symm.trans h2.2.2.1, h1.2.2.2.symm.trans h2.2.2.2⟩

theorem rankKey_setVals {r g : RankRow} {m : Nat} {a : ℚ} :
    rankKey { r with mention_count := m, avg_sentiment := a } g = rankKey r g := by
  simp [rankKey]

theorem rankKey_setRank {r g : RankRow} {v : Option Nat} :
    rankKey { r with popularity_rank := v } g = rankKey r g := by
  simp [rankKey]

theorem applyGroup_noop {g : RankRow} {t : List RankRow} (h : noopCond g t) :
    applyGroup t g = t := by
  rcases h with ⟨⟨r0, hr0, hk0⟩, hall⟩
  unfold applyGroup
  rw [if_pos (List.any_eq_true.mpr ⟨r0, hr0, hk0⟩)]
  have hid : ∀ r ∈ t,
      (if rankKey r g = true then
        { r with mention_count := g.mention_count, avg_sentiment := g.avg_sentiment }
      else r) = r := by
    intro r hr
    by_cases hk : rankKey r g = true
    · rw [if_pos hk]
      rcases hall r hr hk with ⟨h1, h2⟩
      cases r
      simp_all
    · rw [if_neg hk]
  calc t.map _ = t.map id := List.map_congr_left hid
    _ = t := List.map_id t

theorem applyGroup_establishes (g : RankRow) (t : List RankRow) :
    noopCond g (applyGroup t g) := by
  unfold applyGroup noopCond
  by_cases hany : t.any (fun r => rankKey r g) = true
  · rw [if_pos hany]
    constructor
    · rcases List.any_eq_true.mp hany with ⟨r0, hr0, hk0⟩
      refine ⟨_, List.mem_map_of_mem _ hr0, ?_⟩
      rw [if_pos hk0, rankKey_setVals]
      exact hk0
    · intro r hr hk
      rcases List.mem_map.mp hr with ⟨r1, hr1, hre⟩
      by_cases hk1 : rankKey r1 g = true
      · rw [if_pos hk1] at hre
        rw [← hre]
        exact ⟨rfl, rfl⟩
      · rw [if_neg hk1] at hre
        rw [← hre] at hk
        exact absurd hk hk1
  · rw [if_neg hany]
    constructor
    · exact ⟨g, List.mem_append_right _ (by simp), rankKey_refl g⟩
    · intro r hr hk
      rcases List.mem_append.mp hr with hrt | hrg
      · exact absurd (List.any_eq_true.mpr ⟨r, hrt, hk⟩) hany
      · have : r = g := by simpa using hrg
        subst this
        exact ⟨rfl, rfl⟩

theorem applyGroup_preserve {g g' : RankRow} (hkk : rankKey g g' = false)
    {t : List RankRow} (h : noopCond g t) : noopCond g (applyGroup t g') := by
  rcases h with ⟨⟨r0, hr0, hk0⟩, hall⟩
  unfold applyGroup
  by_cases hany : t.any (fun r => rankKey r g') = true
  · rw [if_pos hany]
    constructor
    · refine ⟨_, List.mem_map_of_mem _ hr0, ?_⟩
      by_cases h0 : rankKey r0 g' = true
      · rw [if_pos h0, rankKey_setVals]
        exact hk0
      · rw [if_neg h0]
        exact hk0
    · intro r hr hk
      rcases List.mem_map.mp hr with ⟨r1, hr1, hre⟩
      by_cases h1 : rankKey r1 g' = true
      · rw [if_pos h1] at hre
        rw [← hre, rankKey_setVals] at hk
        exact absurd (rankKey_trans hk h1) (by simp [hkk])
      · rw [if_neg h1] at hre
        rw [← hre] at hk ⊢
        exact hall r1 hr1 hk
  · rw [if_neg hany]
    constructor
    · exact ⟨r0, List.mem_append_left _ hr0, hk0⟩
    · intro r hr hk
      rcases List.mem_append.mp hr with hrt | hrg
      · exact hall r hrt hk
      · have : r = g' := by simpa using hrg
        subst this
        exact absurd (rankKey_symm hk) (by simp [hkk])

theorem mergeAll_preserve {g : RankRow} :
    ∀ (l : List RankRow) (t : List RankRow),
      (∀ g' ∈ l, rankKey g g' = false) → noopCond g t →
      noopCond g (l.foldl applyGroup t)
  | [], _, _, h => h
  | g' :: rest, t, hl, h => by
    rw [List.foldl_cons]
    exact mergeAll_preserve rest _
      (fun x hx => hl x (List.mem_cons_of_mem _ hx))
      (applyGroup_preserve (hl g' (List.mem_cons_self _ _)) h)

theorem mergeAll_noopCond :
    ∀ (gs : List RankRow) (t : List RankRow),
      gs.Pairwise (fun a b => rankKey a b = false) →
      ∀ g ∈ gs, noopCond g (gs.foldl applyGroup t)
  | [], _, _, g, hg => absurd hg (by simp)
  | g0 :: rest, t, hp, g, hg => by
    rw [List.foldl_cons]
    rcases List.mem_cons.mp hg with rfl | hmem
    · exact mergeAll_preserve rest _ (List.pairwise_cons.mp hp).1
        (applyGroup_establishes g t)
    · exact mergeAll_noopCond rest _ (List.pairwise_cons.mp hp).2 g hmem

theorem mergeAll_noop :
    ∀ (gs : List RankRow) (t : List RankRow), (∀ g ∈ gs, noopCond g t) →
      gs.foldl applyGroup t = t
  | [], _, _ => rfl
  | g0 :: rest, t, h => by
    rw [List.foldl_cons, applyGroup_noop (h g0 (List.mem_cons_self _ _))]
    exact mergeAll_noop rest t (fun g hg => h g (List.mem_cons_of_mem _ hg))

theorem inWindow_setRank {period : Str} {today : Int} {r : RankRow}
    {v : Option Nat} :
    inWindow period today { r with popularity_rank := v } = inWindow period today r := by
  simp [inWindow]

theorem setRanks_preserve {g : RankRow} {period : Str} {today : Int}
    {t : List RankRow} (h : noopCond g t) :
    noopCond g (setRanks period today t) := by
  rcases h with ⟨⟨r0, hr0, hk0⟩, hall⟩
  unfold setRanks
  constructor
  · refine ⟨_, List.mem_map_of_mem _ hr0, ?_⟩
    by_cases hw : inWindow period today r0 = true
    · rw [if_pos hw, rankKey_setRank]
      exact hk0
    · rw [if_neg hw]
      exact hk0
  · intro r hr hk
    rcases List.mem_map.mp hr with ⟨r1, hr1, hre⟩
    by_cases hw : inWindow period today r1 = true
    · rw [if_pos hw] at hre
      rw [← hre, rankKey_setRank] at hk
      rw [← hre]
      exact hall r1 hr1 hk
    · rw [if_neg hw] at hre
      rw [← hre] at hk ⊢
      exact hall r1 hr1 hk

theorem rankOf_countP (t : List RankRow) (period : Str) (today : Int)
    (r : RankRow) :
    rankOf t period today r =
      1 + t.countP
        (fun x => inWindow period today x ∧ r.mention_count < x.mention_count) := by
  unfold rankOf
  rw [List.countP_eq_length_filter]

theorem setRanks_countP (period : Str) (today : Int) (t : List RankRow) (m : Nat) :
    (setRanks period today t).countP
        (fun x => inWindow period today x ∧ m < x.mention_count) =
      t.countP (fun x => inWindow period today x ∧ m < x.mention_count) := by
  unfold setRanks
  rw [List.countP_map]
  apply List.countP_congr
  intro a _
  by_cases hw : inWindow period today a = true
  · rw [Function.comp_apply, if_pos hw]
    exact Iff.rfl
  · rw [Function.comp_apply, if_neg hw]

theorem setRanks_idem (period : Str) (today : Int) (t : List RankRow) :
    setRanks period today (setRanks period today t) = setRanks period today t := by
  show (setRanks period today t).map
      (fun r => if inWindow period today r = true then
        { r with popularity_rank := some (rankOf (setRanks period today t) period today r) }
      else r) = setRanks period today t
  have hsuf : ∀ r ∈ setRanks period today t,
      (if inWindow period today r = true then
        { r with popularity_rank := some (rankOf (setRanks period today t) period today r) }
      else r) = r := by
    intro r hr
    rcases List.mem_map.mp hr with ⟨s, hs, hse⟩
    by_cases hw : inWindow period today s = true
    · rw [if_pos hw] at hse
      have hwin : inWindow period today r = true := by
        rw [← hse, inWindow_setRank]
        exact hw
      rw [if_pos hwin]
      have hmc : r.mention_count = s.mention_count := by rw [← hse]
      have hro : rankOf (setRanks period today t) period today r =
          rankOf t period today s := by
        rw [rankOf_countP, setRanks_countP, hmc, ← rankOf_countP]
      rw [hro, ← hse]
    · rw [if_neg hw] at hse
      subst hse
      rw [if_neg hw]
  calc _ = (setRanks period today t).map id := List.map_congr_left hsuf
    _ = _ := List.map_id _

theorem groupRows_pairwise (period : Str) (today : Int) (prs : List AggPR)
    (fes : List AggFE) :
    (groupRows period today prs fes).Pairwise (fun a b => rankKey a b = false) := by
  unfold groupRows
  have hnd : (((joinPR prs (qualifying today (intervalOf period) fes)).map
      (fun x => x.1.flavor_term_id)).dedup).Pairwise (fun a b => a ≠ b) :=
    List.nodup_dedup _
  refine List.Pairwise.map _ (fun a b hab => ?_) hnd
  simp [rankKey, aggFor, hab]

/-- Claim C3: compute_flavor_rankings is idempotent: run a second time on
the same day over an unchanged flavor_extractions / processed_reviews
state, the grouped upsert rewrites mention_count and avg_sentiment with
the values already stored and the rank update recomputes identical ranks,
leaving flavor_rankings exactly as after the first run (for any period
string, hence for week, month and year). -/
theorem C3_compute_flavor_rankings_idem (period : Str) (today : Int)
    (prs : List AggPR) (fes : List AggFE) (t : List RankRow) :
    compute_flavor_rankings period today prs fes
        (compute_flavor_rankings period today prs fes t) =
      compute_flavor_rankings period today prs fes t := by
  unfold compute_flavor_rankings
  have h1 : ∀ g ∈ groupRows period today prs fes,
      noopCond g ((groupRows period today prs fes).foldl applyGroup t) :=
    mergeAll_noopCond _ t (groupRows_pairwise period today prs fes)
  have h2 : ∀ g ∈ groupRows period today prs fes,
      noopCond g (setRanks period today
        ((groupRows period today prs fes).foldl applyGroup t)) :=
    fun g hg => setRanks_preserve (h1 g hg)
  rw [mergeAll_noop _ _ h2, setRanks_idem]

theorem countP_lt_of_witness {α : Type} (p q : α → Bool)
    (hpq : ∀ a, p a = true → q a = true) :
    ∀ (l : List α), ∀ x ∈ l, q x = true → p x = false →
      l.countP p < l.countP q
  | [], x, hx, _, _ => absurd hx (by simp)
  | a :: l, x, hx, hq, hp => by
    rw [List.countP_cons, List.countP_cons]
    rcases List.mem_cons.mp hx with rfl | hmem
    · have hmono : l.countP p ≤ l.countP q :=
        List.countP_mono_left (fun a _ => hpq a)
      simp [hp, hq]
      omega
    · have hlt := countP_lt_of_witness p q hpq l x hmem hq hp
      have hle : (if p a = true then 1 else 0) ≤ (if q a = true then 1 else 0) := by
        by_cases hpa : p a = true
        · rw [if_pos hpa, if_pos (hpq a hpa)]
        · rw [if_neg hpa]
          by_cases hqa : q a = true
          · rw [if_pos hqa]
            omega
          · rw [if_neg hqa]
      omega

theorem joinPR_countP (prs : List AggPR) (fid : Nat) :
    ∀ (l : List AggFE),
      (∀ fe ∈ l,
        (prs.filter (fun pr => pr.id = fe.processed_review_id)).length = 1) →
      (joinPR prs l).countP (fun x => x.1.flavor_term_id = fid) =
        l.countP (fun fe => fe.flavor_term_id = fid)
  | [], _ => by simp [joinPR]
  | fe :: rest, h => by
    have hrec := joinPR_countP prs fid rest
      (fun x hx => h x (List.mem_cons_of_mem _ hx))
    have hsplit : joinPR prs (fe :: rest) =
        ((prs.filter (fun pr => pr.id = fe.processed_review_id)).map
          (fun pr => (fe, pr))) ++ joinPR prs rest := by
      simp [joinPR]
    rw [hsplit, List.countP_append, hrec, List.countP_cons]
    have hmap : ((prs.filter (fun pr => pr.id = fe.processed_review_id)).map
        (fun pr => (fe, pr))).countP (fun x => x.1.flavor_term_id = fid) =
        if fe.flavor_term_id = fid then 1 else 0 := by
      rw [List.countP_map]
      by_cases hf : fe.flavor_term_id = fid
      · rw [if_pos hf]
        exact (List.countP_eq_length.mpr (fun a _ => by simpa using hf)).trans
          (h fe (List.mem_cons_self _ _))
      · rw [if_neg hf]
        exact List.countP_eq_zero.mpr (fun a _ => by simpa using hf)
    rw [hmap]
    by_cases hf : fe.flavor_term_id = fid
    · simp [hf]
      omega
    · simp [hf]

/-- Claim C7 (amended): after compute_flavor_rankings runs, all window rows
(that period_type, period_end = today) carry ranks ordered by mention count
— strictly more mentions means a strictly smaller rank, equal mentions
share a rank — and every row inserted or updated by this run (key-matching
one of its group rows) stores as mention_count exactly the number of
flavor_extractions of that flavor with created_at in the period and
confidence_score above 0.5, provided each extraction joins exactly one
processed_reviews row.  Stale rows keep their old counts but are ranked
alongside. -/
theorem C7_flavor_rankings (period : Str) (today : Int) (prs : List AggPR)
    (fes : List AggFE) (t : List RankRow)
    (hpr : ∀ fe ∈ fes,
      (prs.filter (fun pr => pr.id = fe.processed_review_id)).length = 1) :
    (∀ r1 ∈ compute_flavor_rankings period today prs fes t,
      ∀ r2 ∈ compute_flavor_rankings period today prs fes t,
        inWindow period today r1 = true → inWindow period today r2 = true →
        (r2.mention_count < r1.mention_count →
          r1.popularity_rank.isSome = true ∧ r2.popularity_rank.isSome = true ∧
            r1.popularity_rank.getD 0 < r2.popularity_rank.getD 0) ∧
        (r1.mention_count = r2.mention_count →
          r1.popularity_rank = r2.popularity_rank ∧
            r1.popularity_rank.isSome = true)) ∧
    (∀ g ∈ groupRows period today prs fes,
      ∀ r ∈ compute_flavor_rankings period today prs fes t,
        rankKey r g = true →
          r.mention_count = ((qualifying today (intervalOf period) fes).filter
            (fun fe => fe.flavor_term_id = g.flavor_id)).length) := by
  constructor
  · intro r1 h1 r2 h2 hw1 hw2
    unfold compute_flavor_rankings setRanks at h1 h2
    rcases List.mem_map.mp h1 with ⟨s1, hs1, he1⟩
    rcases List.mem_map.mp h2 with ⟨s2, hs2, he2⟩
    by_cases hws1 : inWindow period today s1 = true
    case neg =>
      rw [if_neg hws1] at he1
      subst he1
      exact absurd hw1 hws1
    by_cases hws2 : inWindow period today s2 = true
    case neg =>
      rw [if_neg hws2] at he2
      subst he2
      exact absurd hw2 hws2
    rw [if_pos hws1] at he1
    rw [if_pos hws2] at he2
    have hrk1 : r1.popularity_rank =
        some (rankOf ((groupRows period today prs fes).foldl applyGroup t)
          period today s1) := by rw [← he1]
    have hrk2 : r2.popularity_rank =
        some (rankOf ((groupRows period today prs fes).foldl applyGroup t)
          period today s2) := by rw [← he2]
    have hmc1 : r1.mention_count = s1.mention_count := by rw [← he1]
    have hmc2 : r2.mention_count = s2.mention_count := by rw [← he2]
    constructor
    · intro hlt
      rw [hmc1, hmc2] at hlt
      refine ⟨by rw [hrk1]; rfl, by rw [hrk2]; rfl, ?_⟩
      rw [hrk1, hrk2]
      show rankOf _ period today s1 < rankOf _ period today s2
      rw [rankOf_countP, rankOf_countP]
      have hcnt := countP_lt_of_witness
        (fun x => inWindow period today x ∧ s1.mention_count < x.mention_count)
        (fun x => inWindow period today x ∧ s2.mention_count < x.mention_count)
        (fun a ha => by
          simp only [Bool.and_eq_true, decide_eq_true_eq] at ha ⊢
          exact ⟨ha.1, lt_trans hlt ha.2⟩)
        ((groupRows period today prs fes).foldl applyGroup t) s1 hs1
        (by
          simp only [Bool.and_eq_true, decide_eq_true_eq]
          exact ⟨hws1, hlt⟩)
        (by simp)
      omega
    · intro heq
      rw [hmc1, hmc2] at heq
      refine ⟨?_, by rw [hrk1]; rfl⟩
      rw [hrk1, hrk2]
      have : rankOf ((groupRows period today prs fes).foldl applyGroup t)
          period today s1 =
          rankOf ((groupRows period today prs fes).foldl applyGroup t)
            period today s2 := by
        unfold rankOf
        rw [heq]
      rw [this]
  · intro g hg r hr hk
    have hnc : noopCond g ((groupRows period today prs fes).foldl applyGroup t) :=
      mergeAll_noopCond _ t (groupRows_pairwise period today prs fes) g hg
    unfold compute_flavor_rankings setRanks at hr
    rcases List.mem_map.mp hr with ⟨s, hs, hse⟩
    have hkey : rankKey s g = true := by
      by_cases hws : inWindow period today s = true
      · rw [if_pos hws] at hse
        rw [← hse, rankKey_setRank] at hk
        exact hk
      · rw [if_neg hws] at hse
        rw [← hse] at hk
        exact hk
    have hmc : r.mention_count = s.mention_count := by
      by_cases hws : inWindow period today s = true
      · rw [if_pos hws] at hse
        rw [← hse]
      · rw [if_neg hws] at hse
        rw [← hse]
    have hsg : s.mention_count = g.mention_count := (hnc.2 s hs hkey).1
    rcases List.mem_map.mp hg with ⟨fid, hfid, hge⟩
    have hgmc : g.mention_count =
        ((joinPR prs (qualifying today (intervalOf period) fes)).countP
          (fun x => x.1.flavor_term_id = fid)) := by
      rw [← hge]
      simp [aggFor, List.countP_eq_length_filter]
    have hgfid : g.flavor_id = fid := by
      rw [← hge]
      simp [aggFor]
    rw [hmc, hsg, hgmc, hgfid,
      joinPR_countP prs fid (qualifying today (intervalOf period) fes)
        (fun fe hfe => hpr fe (List.mem_of_mem_filter hfe)),
      List.countP_eq_length_filter]

/-- Claim C7 (counterexample): a stale row for flavor 99 with
mention_count 7 sits in flavor_rankings; over an empty extraction state the
run leaves its count at 7 and merely re-ranks it, although the number of
qualifying flavor_extractions rows for flavor 99 is 0 — refuting
"mention_count counts exactly the flavor_extractions rows within the
period's date interval whose confidence_score exceeds 0.5" for every row
of the window. -/
theorem C7_cex :
    compute_flavor_rankings ("month".data) 100 [] [] [rrStale] =
        [⟨99, 70, 100, "month".data, 7, 0, 0, 0, 0, some 1⟩] ∧
      ((qualifying 100 30 []).filter (fun fe => fe.flavor_term_id = 99)).length = 0 ∧
      (7 : Nat) ≠ 0 :=
  ⟨rfl, rfl, by decide⟩

/-- Claim C7 (witness): the theorem applied to one review with three
extractions (flavor 6 twice, flavor 5 once), all above the confidence
threshold and inside the week window. -/
theorem C7_witness :
    (∀ fe ∈ aggFes,
      (aggPrs.filter (fun pr => pr.id = fe.processed_review_id)).length = 1) ∧
      (∀ g ∈ groupRows ("week".data) 100 aggPrs aggFes,
        ∀ r ∈ compute_flavor_rankings ("week".data) 100 aggPrs aggFes [],
          rankKey r g = true →
            r.mention_count = ((qualifying 100 (intervalOf ("week".data)) aggFes).filter
              (fun fe => fe.flavor_term_id = g.flavor_id)).length) :=
  ⟨by decide,
    (C7_flavor_rankings ("week".data) 100 aggPrs aggFes [] (by decide)).2⟩

end Coffee
